import Mathlib

/-!
Verification of the Fingerprinting, Identity & Change-Detection Ledger
(milanintel).  Shallow embedding of the core operations:

* `utils.compute_hash` / `utils.make_entity_key` — SHA-256 over byte lists
  (executable, `Nat` arithmetic mod 2^32), hex rendering, `|`-joining of
  non-empty parts, truncation to 32 hex characters.
* `utils.clean_url` and the slice of Python's `urllib.parse` it uses
  (`urlparse`, `parse_qs`, `urlencode`, `urlunparse`).
* `utils.normalize_html` / `utils.extract_text_content` over an HTML node
  tree; the BeautifulSoup parse step is an abstract parameter that may fail.
* `storage.Storage` — runs and observations over an in-memory list model of
  the two SQLite tables, with the dedup unique index (SQLite semantics:
  NULLs are distinct in a unique index).
* `utils.retry_with_backoff` — delays as exact rationals.
-/

set_option maxRecDepth 100000

/-! ## SHA-256 (executable, from hashlib semantics used by `compute_hash`) -/

/-- Truncate to a 32-bit word. -/
def w32 (x : Nat) : Nat := x % 4294967296

/-- Right rotation of a 32-bit word. -/
def rotr32 (n x : Nat) : Nat := w32 ((x >>> n) ||| (x <<< (32 - n)))

def shaCh (x y z : Nat) : Nat := (x &&& y) ^^^ ((x ^^^ 4294967295) &&& z)

def shaMaj (x y z : Nat) : Nat := (x &&& y) ^^^ (x &&& z) ^^^ (y &&& z)

def bsig0 (x : Nat) : Nat := rotr32 2 x ^^^ rotr32 13 x ^^^ rotr32 22 x

def bsig1 (x : Nat) : Nat := rotr32 6 x ^^^ rotr32 11 x ^^^ rotr32 25 x

def ssig0 (x : Nat) : Nat := rotr32 7 x ^^^ rotr32 18 x ^^^ (x >>> 3)

def ssig1 (x : Nat) : Nat := rotr32 17 x ^^^ rotr32 19 x ^^^ (x >>> 10)

/-- The eight working registers of the SHA-256 compression function. -/
structure Hash8 where
  a : Nat
  b : Nat
  c : Nat
  d : Nat
  e : Nat
  f : Nat
  g : Nat
  h : Nat
deriving Repr, DecidableEq

/-- SHA-256 initial hash value. -/
def initH : Hash8 :=
  ⟨1779033703, 3144134277, 1013904242, 2773480762,
   1359893119, 2600822924, 528734635, 1541459225⟩

/-- SHA-256 round constants. -/
def shaK : Array Nat := #[
  1116352408, 1899447441, 3049323471, 3921009573, 961987163, 1508970993, 2453635748, 2870763221,
  3624381080, 310598401, 607225278, 1426881987, 1925078388, 2162078206, 2614888103, 3248222580,
  3835390401, 4022224774, 264347078, 604807628, 770255983, 1249150122, 1555081692, 1996064986,
  2554220882, 2821834349, 2952996808, 3210313671, 3336571891, 3584528711, 113926993, 338241895,
  666307205, 773529912, 1294757372, 1396182291, 1695183700, 1986661051, 2177026350, 2456956037,
  2730485921, 2820302411, 3259730800, 3345764771, 3516065817, 3600352804, 4094571909, 275423344,
  430227734, 506948616, 659060556, 883997877, 958139571, 1322822218, 1537002063, 1747873779,
  1955562222, 2024104815, 2227730452, 2361852424, 2428436474, 2756734187, 3204031479, 3329325298]

/-- Big-endian byte rendering of `x` on `n` bytes. -/
def toBytesBE : Nat → Nat → List Nat
  | 0, _ => []
  | n + 1, x => toBytesBE n (x / 256) ++ [x % 256]

/-- SHA-256 padding: append 0x80, zero bytes to 56 mod 64, then the bit length
on 8 big-endian bytes. -/
def padMessage (m : List Nat) : List Nat :=
  m ++ 128 :: List.replicate ((119 - m.length % 64) % 64) 0 ++ toBytesBE 8 (8 * m.length)

/-- Group 4 big-endian bytes into one 32-bit word. -/
def bytesToWords : List Nat → List Nat
  | b0 :: b1 :: b2 :: b3 :: rest => (((b0 * 256 + b1) * 256 + b2) * 256 + b3) :: bytesToWords rest
  | _ => []

/-- Split into 64-byte blocks (fuel-based so that it reduces in the kernel;
`fuel = l.length` always suffices since every step consumes 64 > 0 bytes). -/
def chunks64Go : Nat → List Nat → List (List Nat)
  | 0, _ => []
  | _, [] => []
  | fuel + 1, x :: xs => (x :: xs).take 64 :: chunks64Go fuel ((x :: xs).drop 64)

/-- Split into 64-byte blocks. -/
def chunks64 (l : List Nat) : List (List Nat) := chunks64Go l.length l

/-- Extend the 16 message words of a block to the 64-word schedule. -/
def extendSchedule (ws : Array Nat) : Array Nat :=
  (List.range 48).foldl
    (fun acc i => acc.push (w32 (ssig1 acc[i + 14]! + acc[i + 9]! + ssig0 acc[i + 1]! + acc[i]!)))
    ws

/-- One round of the SHA-256 compression function. -/
def shaRound (s : Hash8) (wt kt : Nat) : Hash8 :=
  let t1 := w32 (s.h + bsig1 s.e + shaCh s.e s.f s.g + kt + wt)
  let t2 := w32 (bsig0 s.a + shaMaj s.a s.b s.c)
  ⟨w32 (t1 + t2), s.a, s.b, s.c, w32 (s.d + t1), s.e, s.f, s.g⟩

/-- Process one 64-byte block. -/
def compressChunk (st : Hash8) (chunk : List Nat) : Hash8 :=
  let w := extendSchedule (Array.mk (bytesToWords chunk))
  let fs := (List.range 64).foldl (fun s t => shaRound s w[t]! shaK[t]!) st
  ⟨w32 (st.a + fs.a), w32 (st.b + fs.b), w32 (st.c + fs.c), w32 (st.d + fs.d),
   w32 (st.e + fs.e), w32 (st.f + fs.f), w32 (st.g + fs.g), w32 (st.h + fs.h)⟩

/-- SHA-256 digest of a byte list, as 32 bytes. -/
def sha256 (msg : List Nat) : List Nat :=
  let fin := (chunks64 (padMessage msg)).foldl compressChunk initH
  toBytesBE 4 fin.a ++ toBytesBE 4 fin.b ++ toBytesBE 4 fin.c ++ toBytesBE 4 fin.d ++
  toBytesBE 4 fin.e ++ toBytesBE 4 fin.f ++ toBytesBE 4 fin.g ++ toBytesBE 4 fin.h

/-- The lowercase hexadecimal alphabet. -/
def hexAlphabet : List Char := "0123456789abcdef".data

def hexOfNibble (n : Nat) : Char := hexAlphabet.getD n '0'

def hexOfByte (b : Nat) : List Char := [hexOfNibble (b / 16), hexOfNibble (b % 16)]

/-- Lowercase hex rendering of a byte list (Python's `hexdigest`). -/
def bytesToHex (bs : List Nat) : List Char := bs.flatMap hexOfByte

/-- UTF-8 encoding of one character (Python `str.encode("utf-8")`). -/
def utf8Bytes (c : Char) : List Nat :=
  let n := c.toNat
  if n < 128 then [n]
  else if n < 2048 then [192 ||| (n >>> 6), 128 ||| (n &&& 63)]
  else if n < 65536 then [224 ||| (n >>> 12), 128 ||| ((n >>> 6) &&& 63), 128 ||| (n &&& 63)]
  else [240 ||| (n >>> 18), 128 ||| ((n >>> 12) &&& 63), 128 ||| ((n >>> 6) &&& 63), 128 ||| (n &&& 63)]

/-- UTF-8 bytes of a string. -/
def strBytes (s : String) : List Nat := s.data.flatMap utf8Bytes

/-- Embeds `utils.compute_hash` on its `"sha256"` branch — the only branch the
core (and `make_entity_key`) invokes: hex digest of the SHA-256 of the UTF-8
encoded content. -/
def compute_hash (content : String) : String := String.mk (bytesToHex (sha256 (strBytes content)))

/-- Embeds `utils.make_entity_key`: join the truthy (non-empty) parts with
`"|"`, SHA-256 them, keep the first 32 hex characters. -/
def make_entity_key (parts : List String) : String :=
  String.mk ((compute_hash (String.intercalate "|" (parts.filter (fun p => p ≠ "")))).data.take 32)

/-- Known-answer check for the SHA-256 embedding: the empty message. -/
theorem sha256_empty_vector :
    compute_hash "" = "e3b0c44298fc1c149afbf4c8996fb92427ae41e4649b934ca495991b7852b855" := by
  decide

/-- Known-answer check for the SHA-256 embedding: the message "abc". -/
theorem sha256_abc_vector :
    compute_hash "abc" = "ba7816bf8f01cfea414140de5dae2223b00361a396177a9cb410ff61f20015ad" := by
  decide

theorem length_toBytesBE (n x : Nat) : (toBytesBE n x).length = n := by
  induction n generalizing x with
  | zero => rfl
  | succ n ih => simp [toBytesBE, ih]

theorem length_sha256 (m : List Nat) : (sha256 m).length = 32 := by
  simp [sha256, length_toBytesBE]

theorem length_bytesToHex (bs : List Nat) : (bytesToHex bs).length = 2 * bs.length := by
  induction bs with
  | nil => rfl
  | cons b bs ih =>
      simp only [bytesToHex, List.flatMap_cons, List.length_append, List.length_cons] at *
      simp [hexOfByte, ih]
      omega

theorem hexOfNibble_mem (n : Nat) : hexOfNibble n ∈ hexAlphabet := by
  unfold hexOfNibble
  rcases Nat.lt_or_ge n 16 with h | h
  · interval_cases n <;> decide
  · rw [List.getD_eq_default]
    · decide
    · simpa [hexAlphabet] using h

theorem mem_bytesToHex (bs : List Nat) (c : Char) (hc : c ∈ bytesToHex bs) : c ∈ hexAlphabet := by
  induction bs with
  | nil => simp [bytesToHex] at hc
  | cons b bs ih =>
      simp only [bytesToHex, List.flatMap_cons, List.mem_append] at hc
      rcases hc with hc | hc
      · simp only [hexOfByte, List.mem_cons, List.not_mem_nil, or_false] at hc
        rcases hc with hc | hc <;> (subst hc; exact hexOfNibble_mem _)
      · exact ih hc

/-- C4 — `make_entity_key` is the first 32 lowercase-hex characters of the
SHA-256 digest of the non-empty parts joined with `"|"`; it is a pure
deterministic function of the parts, it is order-sensitive, and its output is
always 32 hex characters. -/
theorem make_entity_key_spec :
    (∀ parts : List String,
        make_entity_key parts =
          String.mk ((bytesToHex (sha256 (strBytes
            (String.intercalate "|" (parts.filter (fun p => p ≠ "")))))).take 32)) ∧
    (∀ p q : List String, p = q → make_entity_key p = make_entity_key q) ∧
    (∀ parts : List String, (make_entity_key parts).length = 32 ∧
        ∀ c ∈ (make_entity_key parts).data, c ∈ hexAlphabet) ∧
    make_entity_key ["a", "b"] ≠ make_entity_key ["b", "a"] := by
  refine ⟨fun parts => rfl, fun p q h => by rw [h], fun parts => ⟨?_, ?_⟩, by decide⟩
  · show (String.mk _).length = 32
    have h64 : (bytesToHex (sha256 (strBytes
        (String.intercalate "|" (parts.filter (fun p => p ≠ "")))))).length = 64 := by
      rw [length_bytesToHex, length_sha256]
    simp only [String.length, make_entity_key, compute_hash, List.length_take, h64]
    omega
  · intro c hc
    simp only [make_entity_key, compute_hash] at hc
    exact mem_bytesToHex _ _ (List.take_subset _ _ hc)

/-- Witness for C4 at the concrete parts `["req_123"]`. -/
theorem make_entity_key_spec_witness :
    make_entity_key ["req_123"] = make_entity_key ["req_123"] :=
  make_entity_key_spec.2.1 ["req_123"] ["req_123"] rfl

/-- C10 — `make_entity_key` drops empty-string parts before joining, so
inserting or removing empty-string parts never changes the key; in particular
`entity_key(["a", "", "b"]) = entity_key(["a", "b"])`. -/
theorem make_entity_key_drops_empty :
    (∀ l1 l2 : List String, l1.filter (fun p => p ≠ "") = l2.filter (fun p => p ≠ "") →
        make_entity_key l1 = make_entity_key l2) ∧
    make_entity_key ["a", "", "b"] = make_entity_key ["a", "b"] := by
  have base : ∀ l1 l2 : List String, l1.filter (fun p => p ≠ "") = l2.filter (fun p => p ≠ "") →
      make_entity_key l1 = make_entity_key l2 := by
    intro l1 l2 h
    unfold make_entity_key
    rw [h]
  exact ⟨base, base _ _ (by decide)⟩

/-- Witness for C10 at the concrete parts `["a", ""]` and `["a"]`. -/
theorem make_entity_key_drops_empty_witness :
    make_entity_key ["a", ""] = make_entity_key ["a"] :=
  make_entity_key_drops_empty.1 ["a", ""] ["a"] (by decide)

/-! ## Observation ledger (`storage.py`)

The two SQLite tables are modelled as lists in rowid (insertion) order;
`AUTOINCREMENT` ids are carried by `nextRunId`/`nextObsId`.  Columns declared
`NOT NULL` in `init_db` (`run_id`, `source`, `entity_key`, `observed_at_utc`,
`status`) are typed non-optional; nullable columns are `Option`.  Timestamps
are ISO-8601 TEXT, compared as strings exactly as SQLite compares the stored
TEXT column.  The unique index `idx_observations_dedup` on
`(entity_key, content_hash, run_id)` follows SQLite semantics: a row whose
`content_hash` is NULL never collides.  `ORDER BY observed_at_utc DESC
LIMIT 1` is modelled as the head of a stable descending sort of the rows in
rowid order, i.e. the first-inserted row among those with the greatest
timestamp. -/

inductive RunStatus where
  | started
  | running
  | completed
  | failed
  | partialRun
deriving Repr, DecidableEq

/-- The TEXT value stored for each `RunStatus` (`models.RunStatus`). -/
def RunStatus.value : RunStatus → String
  | .started => "started"
  | .running => "running"
  | .completed => "completed"
  | .failed => "failed"
  | .partialRun => "partial"

inductive SourceType where
  | web
  | job
  | adGoogle
  | adMeta
  | email
deriving Repr, DecidableEq

/-- The TEXT value stored for each `SourceType` (`models.SourceType`). -/
def SourceType.value : SourceType → String
  | .web => "web"
  | .job => "job"
  | .adGoogle => "ad_google"
  | .adMeta => "ad_meta"
  | .email => "email"

/-- The `models.Run` dataclass. -/
structure Run where
  id : Option Nat
  started_at_utc : Option String
  finished_at_utc : Option String
  status : RunStatus
  notes : Option String
deriving Repr, DecidableEq

/-- The `models.Observation` dataclass, restricted to the values the schema
can store (NOT NULL columns non-optional). -/
structure Observation where
  id : Option Nat
  run_id : Nat
  source : SourceType
  entity_key : String
  url : Option String
  observed_at_utc : String
  content_hash : Option String
  raw_path : Option String
  screenshot_path : Option String
  parsed_json : Option String
  status : String
  error_message : Option String
deriving Repr, DecidableEq

/-- A stored row of the `runs` table. -/
structure RunRow where
  id : Nat
  started_at_utc : String
  finished_at_utc : Option String
  status : String
  notes : Option String
deriving Repr, DecidableEq

/-- A stored row of the `observations` table. -/
structure ObsRow where
  id : Nat
  run_id : Nat
  source : SourceType
  entity_key : String
  url : Option String
  observed_at_utc : String
  content_hash : Option String
  raw_path : Option String
  screenshot_path : Option String
  parsed_json : Option String
  status : String
  error_message : Option String
deriving Repr, DecidableEq

/-- The persistent store: both tables in rowid order plus the AUTOINCREMENT
counters. -/
structure DB where
  runs : List RunRow
  observations : List ObsRow
  nextRunId : Nat
  nextObsId : Nat
deriving Repr, DecidableEq

def emptyDB : DB := ⟨[], [], 1, 1⟩

/-- Embeds `Storage.create_run`: INSERT a new run in STARTED status with
`started_at_utc = now`; the Run object is returned with its new id. -/
def create_run (db : DB) (now : String) (notes : Option String) : DB × Run :=
  (⟨db.runs ++ [⟨db.nextRunId, now, none, RunStatus.started.value, notes⟩],
    db.observations, db.nextRunId + 1, db.nextObsId⟩,
   ⟨some db.nextRunId, some now, none, RunStatus.started, notes⟩)

/-- Embeds `Storage.update_run`: UPDATE finished_at_utc, status, notes WHERE
id = run.id (a `run.id` of NULL matches no row, as in SQL). -/
def update_run (db : DB) (run : Run) : DB :=
  { db with runs := db.runs.map (fun r =>
      if some r.id = run.id then
        { r with finished_at_utc := run.finished_at_utc,
                 status := run.status.value, notes := run.notes }
      else r) }

/-- SQL three-valued `=` on a nullable column restricted to a Bool: NULL
compares unequal to everything, including NULL. -/
def sqlEq (a b : Option String) : Bool :=
  match a, b with
  | some x, some y => decide (x = y)
  | _, _ => false

/-- The row, if any, whose `(entity_key, content_hash, run_id)` would violate
the unique index `idx_observations_dedup` on inserting `o`.  SQLite treats
NULLs as distinct in a unique index, so a NULL `content_hash` never
violates. -/
def violatesDedup (db : DB) (o : Observation) : Option ObsRow :=
  match o.content_hash with
  | none => none
  | some h => db.observations.find? (fun r =>
      decide (r.entity_key = o.entity_key) && decide (r.content_hash = some h) &&
      decide (r.run_id = o.run_id))

/-- Embeds `Storage.create_observation`: INSERT; on an IntegrityError from the
dedup index, SELECT the existing `(entity_key, content_hash, run_id)` row and
return its id (the SQL `content_hash = ?` uses `sqlEq`). -/
def create_observation (db : DB) (o : Observation) : DB × Observation :=
  match violatesDedup db o with
  | none =>
      (⟨db.runs,
        db.observations ++ [⟨db.nextObsId, o.run_id, o.source, o.entity_key, o.url,
          o.observed_at_utc, o.content_hash, o.raw_path, o.screenshot_path,
          o.parsed_json, o.status, o.error_message⟩],
        db.nextRunId, db.nextObsId + 1⟩,
       { o with id := some db.nextObsId })
  | some _ =>
      match db.observations.find? (fun r =>
          decide (r.entity_key = o.entity_key) && sqlEq r.content_hash o.content_hash &&
          decide (r.run_id = o.run_id)) with
      | some r => (db, { o with id := some r.id })
      | none => (db, o)

/-- The WHERE clause of `get_last_observation`: entity key match plus the
optional source filter. -/
def matchesQuery (k : String) (src : Option SourceType) (r : ObsRow) : Bool :=
  decide (r.entity_key = k) &&
  match src with
  | none => true
  | some s => decide (r.source = s)

/-- Lexicographic (memcmp) order on byte lists: SQLite's BINARY collation. -/
def bytesLt : List Nat → List Nat → Bool
  | _, [] => false
  | [], _ :: _ => true
  | a :: as, b :: bs => if a < b then true else if a = b then bytesLt as bs else false

/-- SQLite's comparison of two TEXT values (memcmp of the UTF-8 bytes). -/
def textLt (a b : String) : Bool := bytesLt (strBytes a) (strBytes b)

def textLe (a b : String) : Bool := !textLt b a

/-- One step of `ORDER BY observed_at_utc DESC LIMIT 1` read as a stable
maximum scan over rowid order: a later row replaces the current best only
when strictly greater. -/
def lastStep (acc : Option ObsRow) (r : ObsRow) : Option ObsRow :=
  match acc with
  | none => some r
  | some b => if textLt b.observed_at_utc r.observed_at_utc then some r else some b

/-- Embeds `Storage.get_last_observation`: SELECT ... WHERE entity_key = ?
(AND source = ?) ORDER BY observed_at_utc DESC LIMIT 1, the sorter being
stable over rowid order, so the first-inserted row among those with the
greatest `observed_at_utc` is returned. -/
def get_last_observation (db : DB) (k : String) (src : Option SourceType) : Option ObsRow :=
  (db.observations.filter (matchesQuery k src)).foldl lastStep none

/-- Embeds `Storage.check_for_changes`: True when no prior observation exists,
otherwise True exactly when the last observation's `content_hash` differs from
`current_hash` (a NULL stored hash differs from every current hash, as with
Python's `!=` against `None`). -/
def check_for_changes (db : DB) (k : String) (current_hash : String) : Bool :=
  match get_last_observation db k none with
  | none => true
  | some r => decide (r.content_hash ≠ some current_hash)

/-- Embeds the terminal-status classification of `cli.run` (lines 229-236):
PARTIAL when errors occurred and at least one observation was collected,
FAILED when errors occurred and none was, COMPLETED when no error was
counted. -/
def finishStatus (total_errors total_observations : Nat) : RunStatus :=
  if total_errors > 0 then
    (if total_observations > 0 then RunStatus.partialRun else RunStatus.failed)
  else RunStatus.completed

/-- Embeds the terminal update of `cli.run`: set `finished_at_utc` to now and
the status from the error/observation counters, before `update_run`. -/
def finishRun (run : Run) (now : String) (total_errors total_observations : Nat) : Run :=
  { run with finished_at_utc := some now,
             status := finishStatus total_errors total_observations }

/-- The states reachable from an empty store through the ledger's write
operations. -/
inductive Reachable : DB → Prop where
  | empty : Reachable emptyDB
  | createRun (db : DB) (now : String) (notes : Option String) :
      Reachable db → Reachable (create_run db now notes).1
  | createObs (db : DB) (o : Observation) :
      Reachable db → Reachable (create_observation db o).1
  | updateRun (db : DB) (run : Run) :
      Reachable db → Reachable (update_run db run)

/-- The dedup invariant as SQLite actually enforces it: no two distinct rows
share an `entity_key`, a `run_id` and a present (non-NULL) `content_hash`. -/
def DedupOK (db : DB) : Prop :=
  db.observations.Pairwise (fun r1 r2 =>
    ¬(r1.entity_key = r2.entity_key ∧ r1.run_id = r2.run_id ∧
      ∃ h, r1.content_hash = some h ∧ r2.content_hash = some h))

theorem bytesLt_trans : ∀ {x y z : List Nat},
    bytesLt x y = true → bytesLt y z = true → bytesLt x z = true := by
  intro x
  induction x with
  | nil =>
      intro y z hxy hyz
      cases z with
      | nil => cases y <;> simp [bytesLt] at hxy hyz
      | cons c cs => simp [bytesLt]
  | cons a as ih =>
      intro y z hxy hyz
      cases y with
      | nil => simp [bytesLt] at hxy
      | cons b bs =>
          cases z with
          | nil => simp [bytesLt] at hyz
          | cons c cs =>
              simp only [bytesLt] at hxy hyz ⊢
              by_cases hab : a < b
              · by_cases hbc : b < c
                · simp [Nat.lt_trans hab hbc]
                · rw [if_neg hbc] at hyz
                  by_cases hbc2 : b = c
                  · subst hbc2
                    simp [hab]
                  · rw [if_neg hbc2] at hyz
                    exact absurd hyz (by simp)
              · rw [if_neg hab] at hxy
                by_cases hab2 : a = b
                · subst hab2
                  rw [if_pos rfl] at hxy
                  by_cases hbc : a < c
                  · simp [hbc]
                  · rw [if_neg hbc] at hyz
                    by_cases hbc2 : a = c
                    · rw [if_neg hbc, if_pos hbc2]
                      rw [if_pos hbc2] at hyz
                      exact ih hxy hyz
                    · rw [if_neg hbc2] at hyz
                      exact absurd hyz (by simp)
                · rw [if_neg hab2] at hxy
                  exact absurd hxy (by simp)

theorem bytesLt_flip : ∀ {x y : List Nat},
    bytesLt x y = false → x = y ∨ bytesLt y x = true := by
  intro x
  induction x with
  | nil =>
      intro y h
      cases y with
      | nil => exact .inl rfl
      | cons c cs => simp [bytesLt] at h
  | cons a as ih =>
      intro y h
      cases y with
      | nil => exact .inr rfl
      | cons b bs =>
          simp only [bytesLt] at h ⊢
          by_cases hab : a < b
          · simp [hab] at h
          · rw [if_neg hab] at h
            by_cases hab2 : a = b
            · rw [if_pos hab2] at h
              subst hab2
              rcases ih h with h1 | h1
              · exact .inl (by rw [h1])
              · right
                rw [if_neg (lt_irrefl a), if_pos rfl]
                exact h1
            · right
              have hba : b < a := by omega
              simp [hba]

theorem textLt_trans {x y z : String} (h1 : textLt x y = true) (h2 : textLt y z = true) :
    textLt x z = true :=
  bytesLt_trans h1 h2

/-- The stable maximum scan started at `some b` finds the first element of
`b :: l` with the greatest timestamp: everything before it is strictly
smaller, everything after it is no greater. -/
theorem foldl_lastStep_some (l : List ObsRow) (b : ObsRow) :
    ∃ r pre post, l.foldl lastStep (some b) = some r ∧ b :: l = pre ++ r :: post ∧
      (∀ x ∈ pre, textLt x.observed_at_utc r.observed_at_utc = true) ∧
      (∀ x ∈ post, textLe x.observed_at_utc r.observed_at_utc = true) := by
  induction l generalizing b with
  | nil => exact ⟨b, [], [], rfl, rfl, by simp, by simp⟩
  | cons c l ih =>
      simp only [List.foldl_cons]
      by_cases hbc : textLt b.observed_at_utc c.observed_at_utc = true
      · obtain ⟨r, pre, post, hfold, hdec, hpre, hpost⟩ := ih c
        refine ⟨r, b :: pre, post, ?_, ?_, ?_, hpost⟩
        · simpa [lastStep, hbc] using hfold
        · rw [List.cons_append, ← hdec]
        · intro x hx
          rcases List.mem_cons.mp hx with hx | hx
          · subst hx
            cases pre with
            | nil =>
                have : c = r := by simpa using congrArg List.head? hdec
                rw [← this]
                exact hbc
            | cons p ps =>
                have hcp : c = p := by simpa using congrArg List.head? hdec
                have : textLt c.observed_at_utc r.observed_at_utc = true := by
                  rw [hcp]
                  exact hpre p (by simp)
                exact textLt_trans hbc this
          · exact hpre x hx
      · obtain ⟨r, pre, post, hfold, hdec, hpre, hpost⟩ := ih b
        have hstep : lastStep (some b) c = some b := by simp [lastStep, hbc]
        cases pre with
        | nil =>
            have hbr : b = r := by simpa using congrArg List.head? hdec
            have hlpost : l = post := by
              rw [← hbr] at hdec
              simpa using hdec
            refine ⟨r, [], c :: post, by rw [hstep]; exact hfold, by simp [← hbr, hlpost], by simp, ?_⟩
            intro x hx
            rcases List.mem_cons.mp hx with hx | hx
            · subst hx
              simpa [textLe, ← hbr] using hbc
            · exact hpost x hx
        | cons p ps =>
            have hbp : b = p := by simpa using congrArg List.head? hdec
            have hl : l = ps ++ r :: post := by
              have := congrArg (fun t => t.tail) hdec
              simpa using this
            have hbr : textLt b.observed_at_utc r.observed_at_utc = true := by
              rw [hbp]
              exact hpre p (by simp)
            refine ⟨r, b :: c :: ps, post, by rw [hstep]; exact hfold, by simp [hl], ?_, hpost⟩
            intro x hx
            rcases List.mem_cons.mp hx with hx | hx
            · rw [hx]
              exact hbr
            · rcases List.mem_cons.mp hx with hx | hx
              · rw [hx]
                by_contra hcr
                have hcr2 : bytesLt (strBytes c.observed_at_utc) (strBytes r.observed_at_utc) = false := by
                  simpa [textLt] using hcr
                have hbr2 : bytesLt (strBytes b.observed_at_utc) (strBytes r.observed_at_utc) = true := hbr
                rcases bytesLt_flip hcr2 with he | hlt
                · exact hbc (by simpa [textLt, ← he] using hbr2)
                · exact hbc (by simpa [textLt] using bytesLt_trans hbr2 hlt)
              · exact hpre x (by simp [hbp, hx])

/-- C9 — `get_last_observation` returns absent exactly when no stored
observation matches the key (and optional source); otherwise it returns a
stored matching row such that every other matching row has a timestamp no
greater, and every matching row inserted before it has a strictly smaller
timestamp (SQLite TEXT comparison), i.e. the first-inserted row among those
attaining the maximal `observed_at_utc`, across all runs. -/
theorem get_last_observation_spec (db : DB) (k : String) (src : Option SourceType) :
    (get_last_observation db k src = none ↔
      ∀ r ∈ db.observations, matchesQuery k src r = false) ∧
    (∀ r, get_last_observation db k src = some r →
      r ∈ db.observations ∧ matchesQuery k src r = true ∧
      ∃ pre post, db.observations.filter (matchesQuery k src) = pre ++ r :: post ∧
        (∀ x ∈ pre, textLt x.observed_at_utc r.observed_at_utc = true) ∧
        (∀ x ∈ post, textLe x.observed_at_utc r.observed_at_utc = true)) := by
  constructor
  · unfold get_last_observation
    cases hfl : db.observations.filter (matchesQuery k src) with
    | nil =>
        simp only [List.foldl_nil]
        constructor
        · intro _ r hr
          by_contra hq
          have hmem : r ∈ db.observations.filter (matchesQuery k src) :=
            List.mem_filter.mpr ⟨hr, by simpa using hq⟩
          rw [hfl] at hmem
          simp at hmem
        · intro _
          trivial
    | cons c rest =>
        simp only [List.foldl_cons]
        obtain ⟨r, pre, post, hfold, _, _, _⟩ := foldl_lastStep_some rest c
        have hone : lastStep none c = some c := rfl
        rw [hone, hfold]
        constructor
        · intro hcontra
          cases hcontra
        · intro hall
          have hc : c ∈ db.observations.filter (matchesQuery k src) := by
            rw [hfl]
            simp
          have hcm := List.mem_filter.mp hc
          rw [hall c hcm.1] at hcm
          simp at hcm
  · intro r hr
    unfold get_last_observation at hr
    cases hfl : db.observations.filter (matchesQuery k src) with
    | nil =>
        rw [hfl] at hr
        simp at hr
    | cons c rest =>
        rw [hfl] at hr
        simp only [List.foldl_cons] at hr
        obtain ⟨r', pre, post, hfold, hdec, hpre, hpost⟩ := foldl_lastStep_some rest c
        have hone : lastStep none c = some c := rfl
        rw [hone, hfold] at hr
        have hrr : r' = r := by injection hr
        subst hrr
        have hmemf : r' ∈ db.observations.filter (matchesQuery k src) := by
          rw [hfl, hdec]
          simp
        have hm := List.mem_filter.mp hmemf
        exact ⟨hm.1, hm.2, pre, post, hdec, hpre, hpost⟩

def obsW1 : ObsRow :=
  ⟨1, 1, SourceType.web, "e1", none, "2024-01-01T00:00:00", some "a", none, none, none,
   "success", none⟩

def obsW2 : ObsRow :=
  ⟨2, 1, SourceType.web, "e1", none, "2024-01-02T00:00:00", some "b", none, none, none,
   "success", none⟩

def wdb : DB :=
  ⟨[⟨1, "2024-01-01T00:00:00", none, "started", none⟩], [obsW1, obsW2], 2, 3⟩

/-- Witness for C9 on a concrete two-row ledger: the later observation is
returned and characterised. -/
theorem get_last_observation_spec_witness :
    obsW2 ∈ wdb.observations ∧ matchesQuery "e1" none obsW2 = true ∧
    ∃ pre post, wdb.observations.filter (matchesQuery "e1" none) = pre ++ obsW2 :: post ∧
      (∀ x ∈ pre, textLt x.observed_at_utc obsW2.observed_at_utc = true) ∧
      (∀ x ∈ post, textLe x.observed_at_utc obsW2.observed_at_utc = true) :=
  (get_last_observation_spec wdb "e1" none).2 obsW2 (by decide)

/-- C1 — `check_for_changes` is true on first sighting (no prior observation
for the key), and otherwise true exactly when the most recent prior
observation's `content_hash` differs from the current hash; it is a pure
query (its embedding returns only a Bool) over the observations of all runs:
the `runs` table and the id counters do not influence it. -/
theorem check_for_changes_spec (db : DB) (k h : String) :
    (get_last_observation db k none = none → check_for_changes db k h = true) ∧
    (∀ r, get_last_observation db k none = some r →
      ((check_for_changes db k h = true ↔ r.content_hash ≠ some h) ∧
       (check_for_changes db k h = false ↔ r.content_hash = some h))) ∧
    (∀ runs2 nextRunId2,
      check_for_changes ⟨runs2, db.observations, nextRunId2, db.nextObsId⟩ k h =
        check_for_changes db k h) := by
  refine ⟨?_, ?_, ?_⟩
  · intro hn
    unfold check_for_changes
    rw [hn]
  · intro r hr
    unfold check_for_changes
    rw [hr]
    constructor
    · simp
    · simp
  · intro runs2 nextRunId2
    rfl

/-- Witness for C1: an empty ledger reports a change. -/
theorem check_for_changes_spec_witness : check_for_changes emptyDB "e1" "cafe" = true :=
  (check_for_changes_spec emptyDB "e1" "cafe").1 rfl

theorem create_observation_dup_fst {db : DB} {o : Observation} {r0 : ObsRow}
    (hv : violatesDedup db o = some r0) : (create_observation db o).1 = db := by
  unfold create_observation
  rw [hv]
  split
  · rename_i heq
    exact Option.noConfusion heq
  · split <;> rfl

/-- The relation SQLite's unique index enforces between any two stored rows. -/
def dedupRel (r1 r2 : ObsRow) : Prop :=
  ¬(r1.entity_key = r2.entity_key ∧ r1.run_id = r2.run_id ∧
    ∃ h, r1.content_hash = some h ∧ r2.content_hash = some h)

theorem dedupRel_symm : Symmetric dedupRel := by
  intro a b hab hcon
  exact hab ⟨hcon.1.symm, hcon.2.1.symm, hcon.2.2.elim (fun hh hp => ⟨hh, hp.2, hp.1⟩)⟩

theorem reachable_dedupOK {db : DB} (hdb : Reachable db) :
    db.observations.Pairwise dedupRel := by
  induction hdb with
  | empty => simp [emptyDB]
  | createRun db now notes _ ih => simpa [create_run] using ih
  | updateRun db run _ ih => simpa [update_run] using ih
  | createObs db o _ ih =>
      cases hv : violatesDedup db o with
      | some r0 =>
          rw [create_observation_dup_fst hv]
          exact ih
      | none =>
          unfold create_observation
          rw [hv]
          simp only
          rw [List.pairwise_append]
          refine ⟨ih, by simp, ?_⟩
          intro x hx y hy
          simp only [List.mem_singleton] at hy
          subst hy
          rintro ⟨hkey, hrun, hh, hxh, hyh⟩
          simp only at hkey hrun hyh
          unfold violatesDedup at hv
          cases hoc : o.content_hash with
          | none =>
              rw [hoc] at hyh
              exact Option.noConfusion hyh
          | some hsh =>
              rw [hoc] at hv
              have hnm := List.find?_eq_none.mp hv x hx
              apply hnm
              have hhh : hsh = hh := by
                rw [hoc] at hyh
                exact Option.some.inj hyh
              simp [hkey, hrun, hxh, hhh]

/-- Any two stored rows of a reachable ledger that agree on `entity_key`,
`run_id` and a present `content_hash` are the same row. -/
theorem dedup_unique {db : DB} (hdb : Reachable db) {r1 r2 : ObsRow}
    (h1 : r1 ∈ db.observations) (h2 : r2 ∈ db.observations)
    (hk : r1.entity_key = r2.entity_key) (hr : r1.run_id = r2.run_id)
    {h : String} (hc1 : r1.content_hash = some h) (hc2 : r2.content_hash = some h) :
    r1 = r2 := by
  by_cases he : r1 = r2
  · exact he
  · have := List.Pairwise.forall dedupRel_symm (reachable_dedupOK hdb) h1 h2 he
    exact absurd ⟨hk, hr, h, hc1, hc2⟩ this

/-- C3 (amended) — in every reachable ledger state the triple
`(entity_key, content_hash, run_id)` with a present `content_hash` is unique;
rows whose `content_hash` is absent are exempt, since SQLite's unique index
treats NULLs as distinct. -/
theorem dedup_invariant_reachable (db : DB) (hdb : Reachable db) :
    ∀ r1 ∈ db.observations, ∀ r2 ∈ db.observations,
      r1.entity_key = r2.entity_key → r1.run_id = r2.run_id →
      ∀ h, r1.content_hash = some h → r2.content_hash = some h → r1 = r2 := by
  intro r1 h1 r2 h2 hk hr h hc1 hc2
  exact dedup_unique hdb h1 h2 hk hr hc1 hc2

/-- An error observation: no content hash (collection failed). -/
def obsNull : Observation :=
  ⟨none, 1, SourceType.web, "e", none, "2024-01-01T00:00:01", none, none, none, none,
   "error", some "boom"⟩

/-- One run and one stored hashless observation. -/
def dbOneNull : DB :=
  (create_observation (create_run emptyDB "2024-01-01T00:00:00" none).1 obsNull).1

/-- The same hashless observation submitted twice. -/
def dbTwoNull : DB := (create_observation dbOneNull obsNull).1

/-- Counterexample to C3 as stated: a reachable state (one run, the same
hashless observation submitted twice) holds two distinct rows with the same
`entity_key`, the same `run_id` and the same absent `content_hash` — SQLite's
unique index does not fire on NULLs. -/
theorem dedup_nulls_counterexample :
    Reachable dbTwoNull ∧
    ∃ r1 r2, dbTwoNull.observations = [r1, r2] ∧ r1.id ≠ r2.id ∧
      r1.entity_key = r2.entity_key ∧ r1.run_id = r2.run_id ∧
      r1.content_hash = none ∧ r2.content_hash = none := by
  constructor
  · exact Reachable.createObs _ _ (Reachable.createObs _ _
      (Reachable.createRun _ _ _ Reachable.empty))
  · exact ⟨⟨1, 1, SourceType.web, "e", none, "2024-01-01T00:00:01", none, none, none, none,
      "error", some "boom"⟩,
     ⟨2, 1, SourceType.web, "e", none, "2024-01-01T00:00:01", none, none, none, none,
      "error", some "boom"⟩, by decide⟩

/-- A stored hashed row used by the C3 witness. -/
def rowAw : ObsRow :=
  ⟨1, 1, SourceType.web, "e1", none, "2024-01-01T00:00:00", some "aaaa", none, none, none,
   "success", none⟩

/-- One run and one stored hashed observation, used by the C3 witness. -/
def rdb1w : DB :=
  (create_observation (create_run emptyDB "2024-01-01T00:00:00" none).1
    ⟨none, 1, SourceType.web, "e1", none, "2024-01-01T00:00:00", some "aaaa", none, none,
     none, "success", none⟩).1

/-- Witness for the amended C3: a concrete reachable state holding a hashed
row, with the uniqueness conclusion instantiated at that row. -/
theorem dedup_invariant_reachable_witness :
    Reachable rdb1w ∧ rowAw ∈ rdb1w.observations ∧
    rowAw.content_hash = some "aaaa" ∧ rowAw = rowAw := by
  have hre : Reachable rdb1w :=
    Reachable.createObs _ _ (Reachable.createRun _ _ _ Reachable.empty)
  have hmem : rowAw ∈ rdb1w.observations := by decide
  exact ⟨hre, hmem, rfl,
    dedup_invariant_reachable rdb1w hre rowAw hmem rowAw hmem rfl rfl "aaaa" rfl rfl⟩

theorem countP_le_one_of_pairwise {α : Type} (l : List α) (p : α → Bool)
    (R : α → α → Prop) (hl : l.Pairwise R)
    (hR : ∀ x y, R x y → p x = true → p y = true → False) : l.countP p ≤ 1 := by
  induction l with
  | nil => simp
  | cons a l ih =>
      rw [List.countP_cons]
      rcases List.pairwise_cons.mp hl with ⟨ha, hl2⟩
      by_cases hpa : p a = true
      · have hzero : l.countP p = 0 := by
          rw [List.countP_eq_zero]
          intro y hy hpy
          exact hR a y (ha y hy) hpa hpy
        simp [hzero, hpa]
      · have : p a ≠ true := hpa
        simp only [this, if_neg]
        simpa using ih hl2

theorem sqlEq_some_right {a : Option String} {h : String} (hq : sqlEq a (some h) = true) :
    a = some h := by
  cases a with
  | none => simp [sqlEq] at hq
  | some x =>
      simp only [sqlEq, decide_eq_true_eq] at hq
      rw [hq]

/-- C2 (amended) — re-submitting an observation whose present `content_hash`,
`entity_key` and `run_id` match an already-stored row is not an error: the
ledger is left unchanged (exactly one matching row is stored) and the call
returns the observation carrying the existing row's id.  (When `content_hash`
is absent the unique index does not fire and a second row is inserted — see
the counterexample.) -/
theorem create_observation_idempotent (db : DB) (o : Observation) (hreach : Reachable db)
    (h : String) (hh : o.content_hash = some h) (r : ObsRow) (hr : r ∈ db.observations)
    (hkey : r.entity_key = o.entity_key) (hhash : r.content_hash = some h)
    (hrun : r.run_id = o.run_id) :
    (create_observation db o).1 = db ∧
    (create_observation db o).2 = { o with id := some r.id } ∧
    (create_observation db o).1.observations.countP (fun x =>
        decide (x.entity_key = o.entity_key) && decide (x.content_hash = some h) &&
        decide (x.run_id = o.run_id)) = 1 := by
  have hvs : (violatesDedup db o).isSome := by
    unfold violatesDedup
    rw [hh]
    exact List.find?_isSome.mpr ⟨r, hr, by simp [hkey, hhash, hrun]⟩
  obtain ⟨r0, hv⟩ := Option.isSome_iff_exists.mp hvs
  have hfst : (create_observation db o).1 = db := create_observation_dup_fst hv
  refine ⟨hfst, ?_, ?_⟩
  · have hpred2 : (decide (r.entity_key = o.entity_key) && sqlEq r.content_hash o.content_hash &&
        decide (r.run_id = o.run_id)) = true := by
      simp [hkey, hrun, hhash, hh, sqlEq]
    have hfs : (db.observations.find? (fun x =>
        decide (x.entity_key = o.entity_key) && sqlEq x.content_hash o.content_hash &&
        decide (x.run_id = o.run_id))).isSome :=
      List.find?_isSome.mpr ⟨r, hr, hpred2⟩
    obtain ⟨r1, hf⟩ := Option.isSome_iff_exists.mp hfs
    have hmem1 := List.mem_of_find?_eq_some hf
    have hp1 := List.find?_some hf
    simp only [Bool.and_eq_true, decide_eq_true_eq] at hp1
    have hc1 : r1.content_hash = some h := by
      have := hp1.1.2
      rw [hh] at this
      exact sqlEq_some_right this
    have hr1r : r1 = r := by
      refine dedup_unique hreach hmem1 hr ?_ ?_ hc1 hhash
      · rw [hp1.1.1, hkey]
      · rw [hp1.2, hrun]
    unfold create_observation
    rw [hv, hf, hr1r]
  · rw [hfst]
    have hple : db.observations.countP (fun x =>
        decide (x.entity_key = o.entity_key) && decide (x.content_hash = some h) &&
        decide (x.run_id = o.run_id)) ≤ 1 := by
      refine countP_le_one_of_pairwise _ _ dedupRel (reachable_dedupOK hreach) ?_
      intro x y hxy hpx hpy
      simp only [Bool.and_eq_true, decide_eq_true_eq] at hpx hpy
      exact hxy ⟨hpx.1.1.trans hpy.1.1.symm, hpx.2.trans hpy.2.symm, h, hpx.1.2, hpy.1.2⟩
    have hpge : 0 < db.observations.countP (fun x =>
        decide (x.entity_key = o.entity_key) && decide (x.content_hash = some h) &&
        decide (x.run_id = o.run_id)) :=
      List.countP_pos_iff.mpr ⟨r, hr, by simp [hkey, hhash, hrun]⟩
    omega

/-- A successful observation with a present content hash. -/
def obsA : Observation :=
  ⟨none, 1, SourceType.web, "e1", none, "2024-01-01T00:00:00", some "aaaa", none, none, none,
   "success", none⟩

/-- The row stored for `obsA` in a fresh ledger. -/
def rowA : ObsRow :=
  ⟨1, 1, SourceType.web, "e1", none, "2024-01-01T00:00:00", some "aaaa", none, none, none,
   "success", none⟩

/-- One run and one stored hashed observation. -/
def rdb1 : DB :=
  (create_observation (create_run emptyDB "2024-01-01T00:00:00" none).1 obsA).1

/-- Witness for the amended C2: re-submitting `obsA` leaves the ledger
unchanged and returns the stored row's id 1. -/
theorem create_observation_idempotent_witness :
    (create_observation rdb1 obsA).1 = rdb1 ∧
    (create_observation rdb1 obsA).2 = { obsA with id := some rowA.id } ∧
    (create_observation rdb1 obsA).1.observations.countP (fun x =>
        decide (x.entity_key = obsA.entity_key) && decide (x.content_hash = some "aaaa") &&
        decide (x.run_id = obsA.run_id)) = 1 :=
  create_observation_idempotent rdb1 obsA
    (Reachable.createObs _ _ (Reachable.createRun _ _ _ Reachable.empty))
    "aaaa" rfl rowA (by decide) rfl rfl rfl

/-- Counterexample to C2 as stated: when the duplicate row's `content_hash`
is absent, re-submission inserts a second row instead of degrading to a
lookup — a row with the same `(entity_key, content_hash, run_id)` existed,
yet two rows result. -/
theorem create_observation_null_dup_counterexample :
    (∃ r ∈ dbOneNull.observations, r.entity_key = obsNull.entity_key ∧
        r.content_hash = obsNull.content_hash ∧ r.run_id = obsNull.run_id) ∧
    (create_observation dbOneNull obsNull).1.observations.length = 2 := by
  constructor
  · exact ⟨⟨1, 1, SourceType.web, "e", none, "2024-01-01T00:00:01", none, none, none, none,
      "error", some "boom"⟩, by decide⟩
  · decide

/-- C5 — a run created via `create_run` starts in STARTED with `started_at`
set at creation and no `finished_at`; the terminal update of `cli.run` moves
it to exactly one terminal status — COMPLETED iff no errors were counted,
PARTIAL iff errors and at least one observation, FAILED iff errors and zero
observations — sets `finished_at`, and under a monotone clock
`finished_at >= started_at` (SQLite TEXT order); `update_run` persists the
terminal row. -/
theorem run_lifecycle_spec (db : DB) (now1 now2 : String) (notes : Option String)
    (te tobs : Nat) (hmono : textLe now1 now2 = true) :
    (create_run db now1 notes).2.status = RunStatus.started ∧
    (create_run db now1 notes).2.started_at_utc = some now1 ∧
    (create_run db now1 notes).2.finished_at_utc = none ∧
    ((finishRun (create_run db now1 notes).2 now2 te tobs).status = RunStatus.completed ↔
      te = 0) ∧
    ((finishRun (create_run db now1 notes).2 now2 te tobs).status = RunStatus.partialRun ↔
      0 < te ∧ 0 < tobs) ∧
    ((finishRun (create_run db now1 notes).2 now2 te tobs).status = RunStatus.failed ↔
      0 < te ∧ tobs = 0) ∧
    (finishRun (create_run db now1 notes).2 now2 te tobs).status ≠ RunStatus.started ∧
    (finishRun (create_run db now1 notes).2 now2 te tobs).status ≠ RunStatus.running ∧
    (finishRun (create_run db now1 notes).2 now2 te tobs).started_at_utc = some now1 ∧
    (finishRun (create_run db now1 notes).2 now2 te tobs).finished_at_utc = some now2 ∧
    textLe now1 now2 = true ∧
    (∃ pre, (update_run (create_run db now1 notes).1
        (finishRun (create_run db now1 notes).2 now2 te tobs)).runs =
      pre ++ [⟨db.nextRunId, now1, some now2, (finishStatus te tobs).value, notes⟩]) := by
  refine ⟨rfl, rfl, rfl, ?_, ?_, ?_, ?_, ?_, rfl, rfl, hmono, ?_⟩
  · unfold finishRun finishStatus
    split_ifs with h1 h2 <;> simp <;> omega
  · unfold finishRun finishStatus
    split_ifs with h1 h2 <;> simp <;> omega
  · unfold finishRun finishStatus
    split_ifs with h1 h2 <;> simp <;> omega
  · unfold finishRun finishStatus
    split_ifs with h1 h2 <;> simp
  · unfold finishRun finishStatus
    split_ifs with h1 h2 <;> simp
  · refine ⟨db.runs.map (fun r =>
      if some r.id = some db.nextRunId then
        { r with finished_at_utc := some now2,
                 status := (finishStatus te tobs).value, notes := notes }
      else r), ?_⟩
    unfold update_run create_run finishRun
    simp

/-- Witness for C5: one error and two observations classify as PARTIAL. -/
theorem run_lifecycle_spec_witness :
    (finishRun (create_run emptyDB "2024-01-01T00:00:00" none).2
        "2024-01-01T00:10:00" 1 2).status = RunStatus.partialRun ↔ 0 < 1 ∧ 0 < 2 :=
  (run_lifecycle_spec emptyDB "2024-01-01T00:00:00" "2024-01-01T00:10:00" none 1 2
    (by decide)).2.2.2.2.1

/-! ## Resilience primitive (`utils.retry_with_backoff`)

The callable is modelled as an oracle giving the outcome of each invocation;
delays are exact rationals (`min (backoff * exponential_base) max_backoff` is
the source's float arithmetic read exactly).  The third result component is
the list of delays slept, in order. -/

inductive RetryResult (E A : Type) where
  | ok (a : A)
  | failed (e : E)
  | logicError
deriving DecidableEq

/-- The retry loop: `attempt` is the index of the next invocation, `fuel` is
`max_attempts - attempt`; a success returns at once, a failure on the last
permitted attempt re-raises, otherwise the loop sleeps `backoff` and
continues with `min (backoff * base) maxB`.  Reaching zero fuel without any
invocation is the source's unreachable `RuntimeError` path. -/
def retryGo {E A : Type} (outcomes : Nat → Except E A) (base maxB : ℚ) :
    Nat → Nat → ℚ → RetryResult E A × Nat × List ℚ
  | _, 0, _ => (.logicError, 0, [])
  | attempt, fuel + 1, backoff =>
      match outcomes attempt with
      | .ok a => (.ok a, 1, [])
      | .error e =>
          if fuel = 0 then (.failed e, 1, [])
          else
            let r := retryGo outcomes base maxB (attempt + 1) fuel (min (backoff * base) maxB)
            (r.1, r.2.1 + 1, backoff :: r.2.2)

/-- Embeds `utils.retry_with_backoff` over the invocation oracle. -/
def retry_with_backoff {E A : Type} (outcomes : Nat → Except E A) (max_attempts : Nat)
    (initial_backoff max_backoff exponential_base : ℚ) : RetryResult E A × Nat × List ℚ :=
  retryGo outcomes exponential_base max_backoff 0 max_attempts initial_backoff

/-- The delay sequence of the specification: starts at `initial`, multiplied
by `base` and capped at `maxB` after each subsequent attempt. -/
def backoffSeq (initial maxB base : ℚ) : Nat → ℚ
  | 0 => initial
  | n + 1 => min (backoffSeq initial maxB base n * base) maxB

theorem backoffSeq_shift (b maxB base : ℚ) (i : Nat) :
    backoffSeq b maxB base (i + 1) = backoffSeq (min (b * base) maxB) maxB base i := by
  induction i with
  | zero => rfl
  | succ n ih =>
      show min (backoffSeq b maxB base (n + 1) * base) maxB = _
      rw [ih]
      rfl

theorem range_map_backoffSeq (b maxB base : ℚ) (n : Nat) :
    (List.range (n + 1)).map (backoffSeq b maxB base) =
      b :: (List.range n).map (backoffSeq (min (b * base) maxB) maxB base) := by
  rw [List.range_succ_eq_map, List.map_cons, List.map_map]
  have hshift : ∀ i ∈ List.range n,
      (backoffSeq b maxB base ∘ Nat.succ) i = backoffSeq (min (b * base) maxB) maxB base i :=
    fun i _ => backoffSeq_shift b maxB base i
  rw [List.map_congr_left hshift]
  rfl

theorem retryGo_succ_ok {E A : Type} (outcomes : Nat → Except E A) (base maxB : ℚ)
    (attempt f : Nat) (b : ℚ) (a : A) (he : outcomes attempt = .ok a) :
    retryGo outcomes base maxB attempt (f + 1) b = (.ok a, 1, []) := by
  unfold retryGo
  rw [he]

theorem retryGo_succ_error {E A : Type} (outcomes : Nat → Except E A) (base maxB : ℚ)
    (attempt f : Nat) (b : ℚ) (e : E) (he : outcomes attempt = .error e) :
    retryGo outcomes base maxB attempt (f + 1) b =
      (if f = 0 then (.failed e, 1, [])
       else
         let r := retryGo outcomes base maxB (attempt + 1) f (min (b * base) maxB)
         (r.1, r.2.1 + 1, b :: r.2.2)) := by
  conv_lhs => unfold retryGo
  rw [he]

theorem retryGo_all_fail {E A : Type} (outcomes : Nat → Except E A) (base maxB : ℚ) :
    ∀ (fuel attempt : Nat) (b : ℚ), 1 ≤ fuel →
    (∀ i, attempt ≤ i → i < attempt + fuel → ∃ e, outcomes i = .error e) →
    ∃ e, outcomes (attempt + fuel - 1) = .error e ∧
      retryGo outcomes base maxB attempt fuel b =
        (.failed e, fuel, (List.range (fuel - 1)).map (backoffSeq b maxB base)) := by
  intro fuel
  induction fuel with
  | zero => omega
  | succ f ih =>
      intro attempt b _ hall
      obtain ⟨e, he⟩ := hall attempt (le_refl _) (by omega)
      by_cases hf : f = 0
      · subst hf
        refine ⟨e, by simpa using he, ?_⟩
        rw [retryGo_succ_error outcomes base maxB attempt 0 b e he]
        simp
      · obtain ⟨f2, hf2⟩ : ∃ f2, f = f2 + 1 := ⟨f - 1, by omega⟩
        subst hf2
        obtain ⟨e2, he2, hrec⟩ := ih (attempt + 1) (min (b * base) maxB) (by omega)
          (fun i h1 h2 => hall i (by omega) (by omega))
        refine ⟨e2, by rw [← he2]; congr 1; omega, ?_⟩
        rw [retryGo_succ_error outcomes base maxB attempt (f2 + 1) b e he, if_neg hf]
        simp only [hrec]
        rw [show f2 + 1 + 1 - 1 = f2 + 1 by omega, range_map_backoffSeq,
          show f2 + 1 - 1 = f2 by omega]

theorem retryGo_first_success {E A : Type} (outcomes : Nat → Except E A) (base maxB : ℚ) :
    ∀ (j fuel attempt : Nat) (b : ℚ) (a : A), j < fuel →
    outcomes (attempt + j) = .ok a →
    (∀ i, attempt ≤ i → i < attempt + j → ∃ e, outcomes i = .error e) →
    retryGo outcomes base maxB attempt fuel b =
      (.ok a, j + 1, (List.range j).map (backoffSeq b maxB base)) := by
  intro j
  induction j with
  | zero =>
      intro fuel attempt b a hj hok _
      cases fuel with
      | zero => omega
      | succ f =>
          rw [show attempt + 0 = attempt by omega] at hok
          rw [retryGo_succ_ok outcomes base maxB attempt f b a hok]
          simp
  | succ j2 ih =>
      intro fuel attempt b a hj hok hfail
      cases fuel with
      | zero => omega
      | succ f =>
          obtain ⟨e, he⟩ := hfail attempt (le_refl _) (by omega)
          have hf0 : ¬(f = 0) := by omega
          have hrec := ih f (attempt + 1) (min (b * base) maxB) a (by omega)
            (by rw [← hok]; congr 1; omega)
            (fun i h1 h2 => hfail i (by omega) (by omega))
          rw [retryGo_succ_error outcomes base maxB attempt f b e he, if_neg hf0]
          simp only [hrec]
          rw [range_map_backoffSeq]

theorem retryGo_invocations_le {E A : Type} (outcomes : Nat → Except E A) (base maxB : ℚ) :
    ∀ (fuel attempt : Nat) (b : ℚ),
      (retryGo outcomes base maxB attempt fuel b).2.1 ≤ fuel := by
  intro fuel
  induction fuel with
  | zero =>
      intro attempt b
      exact Nat.le_refl 0
  | succ f ih =>
      intro attempt b
      cases houtcome : outcomes attempt with
      | ok a =>
          rw [retryGo_succ_ok outcomes base maxB attempt f b a houtcome]
          exact Nat.succ_le_succ (Nat.zero_le f)
      | error e =>
          rw [retryGo_succ_error outcomes base maxB attempt f b e houtcome]
          by_cases hf : f = 0
          · simp [hf]
          · rw [if_neg hf]
            exact Nat.succ_le_succ (ih (attempt + 1) (min (b * base) maxB))

/-- C8 — `retry_with_backoff` invokes the operation at most `max_attempts`
times; when every permitted invocation fails it re-raises the last failure,
having slept after each non-final failed attempt for delays that start at
`initial_backoff` and are multiplied by `exponential_base` then capped at
`max_backoff`; and the first successful invocation's result is returned at
once with the same delay discipline for the preceding failures. -/
theorem retry_with_backoff_spec {E A : Type} (outcomes : Nat → Except E A)
    (max_attempts : Nat) (initial maxB base : ℚ) (hma : 1 ≤ max_attempts) :
    ((retry_with_backoff outcomes max_attempts initial maxB base).2.1 ≤ max_attempts) ∧
    ((∀ i, i < max_attempts → ∃ e, outcomes i = .error e) →
      ∃ e, outcomes (max_attempts - 1) = .error e ∧
        retry_with_backoff outcomes max_attempts initial maxB base =
          (.failed e, max_attempts,
           (List.range (max_attempts - 1)).map (backoffSeq initial maxB base))) ∧
    (∀ j a, j < max_attempts → outcomes j = .ok a →
      (∀ i, i < j → ∃ e, outcomes i = .error e) →
      retry_with_backoff outcomes max_attempts initial maxB base =
        (.ok a, j + 1, (List.range j).map (backoffSeq initial maxB base))) := by
  refine ⟨retryGo_invocations_le outcomes base maxB max_attempts 0 initial, ?_, ?_⟩
  · intro hall
    obtain ⟨e, he, hr⟩ := retryGo_all_fail outcomes base maxB max_attempts 0 initial hma
      (fun i _ h2 => hall i (by omega))
    exact ⟨e, by simpa using he, hr⟩
  · intro j a hj hok hfail
    exact retryGo_first_success outcomes base maxB j max_attempts 0 initial a hj
      (by simpa using hok) (fun i _ h2 => hfail i (by omega))

/-- Witness for C8: two failures then a success, with the default policy
(initial 2, cap 30, base 2) — result 7, three invocations, sleeps [2, 4]. -/
theorem retry_with_backoff_spec_witness :
    retry_with_backoff (fun i => if i < 2 then Except.error "boom" else Except.ok (7 : Nat))
        3 2 30 2 =
      (.ok 7, 2 + 1, (List.range 2).map (backoffSeq 2 30 2)) :=
  (retry_with_backoff_spec (fun i => if i < 2 then Except.error "boom" else Except.ok (7 : Nat))
      3 2 30 2 (by omega)).2.2 2 7 (by omega) (by rfl)
    (fun i hi => ⟨"boom", by
      have h2 : i < 2 := hi
      simp [h2]⟩)

/-! ## `utils.clean_url` and the slice of `urllib.parse` it invokes

`urlparse`, `parse_qs`, `urlencode` and `urlunparse` are embedded from
CPython's `urllib/parse.py` (current 3.x: WHATWG C0/space lstrip and
tab/CR/LF removal included; the NFKC netloc check, which only concerns
non-ASCII netlocs, and bracketed-host validation are out of scope of the
URLs the claims exercise).  Strings are processed as `List Char`;
percent-decoding of invalid UTF-8 renders one U+FFFD per rejected byte
(CPython's `errors="replace"` may merge several bytes into one replacement;
no claim exercises malformed escapes).  `str.lower` is embedded for ASCII. -/

/-- Python `s.split(sep, 1)`: text before the first separator, and the rest
when the separator occurs. -/
def splitOnceChar (sep : Char) : List Char → List Char × Option (List Char)
  | [] => ([], none)
  | c :: cs =>
      if c = sep then ([], some cs)
      else
        let r := splitOnceChar sep cs
        (c :: r.1, r.2)

/-- Python `s.split(sep)`: every field, empties preserved. -/
def splitAll (sep : Char) : List Char → List (List Char)
  | [] => [[]]
  | c :: cs =>
      let r := splitAll sep cs
      if c = sep then [] :: r
      else
        match r with
        | h :: t => (c :: h) :: t
        | [] => [[c]]

def isAsciiLetter (c : Char) : Bool := ('a' ≤ c && c ≤ 'z') || ('A' ≤ c && c ≤ 'Z')

def isAsciiDigit (c : Char) : Bool := '0' ≤ c && c ≤ '9'

/-- `scheme_chars` of `urllib.parse`. -/
def schemeCharB (c : Char) : Bool :=
  isAsciiLetter c || isAsciiDigit c || c == '+' || c == '-' || c == '.'

def hexVal (c : Char) : Option Nat :=
  if '0' ≤ c ∧ c ≤ '9' then some (c.toNat - 48)
  else if 'a' ≤ c ∧ c ≤ 'f' then some (c.toNat - 87)
  else if 'A' ≤ c ∧ c ≤ 'F' then some (c.toNat - 55)
  else none

def replacementChar : Char := Char.ofNat 65533

/-- UTF-8 decoding with U+FFFD replacement of rejected bytes (fuelled so the
kernel can evaluate it; `fuel = length` suffices as each step consumes at
least one byte). -/
def utf8DecodeGo : Nat → List Nat → List Char
  | 0, _ => []
  | _, [] => []
  | fuel + 1, b :: bs =>
      if b < 128 then Char.ofNat b :: utf8DecodeGo fuel bs
      else if 194 ≤ b ∧ b ≤ 223 then
        match bs with
        | b2 :: bs2 =>
            if 128 ≤ b2 ∧ b2 < 192 then
              Char.ofNat ((b - 192) * 64 + (b2 - 128)) :: utf8DecodeGo fuel bs2
            else replacementChar :: utf8DecodeGo fuel bs
        | [] => [replacementChar]
      else if 224 ≤ b ∧ b ≤ 239 then
        match bs with
        | b2 :: b3 :: bs3 =>
            let cp := (b - 224) * 4096 + (b2 - 128) * 64 + (b3 - 128)
            if (128 ≤ b2 ∧ b2 < 192) ∧ (128 ≤ b3 ∧ b3 < 192) ∧ 2048 ≤ cp ∧
                ¬(55296 ≤ cp ∧ cp ≤ 57343) then
              Char.ofNat cp :: utf8DecodeGo fuel bs3
            else replacementChar :: utf8DecodeGo fuel bs
        | _ => [replacementChar]
      else if 240 ≤ b ∧ b ≤ 244 then
        match bs with
        | b2 :: b3 :: b4 :: bs4 =>
            let cp := (b - 240) * 262144 + (b2 - 128) * 4096 + (b3 - 128) * 64 + (b4 - 128)
            if (128 ≤ b2 ∧ b2 < 192) ∧ (128 ≤ b3 ∧ b3 < 192) ∧ (128 ≤ b4 ∧ b4 < 192) ∧
                65536 ≤ cp ∧ cp ≤ 1114111 then
              Char.ofNat cp :: utf8DecodeGo fuel bs4
            else replacementChar :: utf8DecodeGo fuel bs
        | _ => [replacementChar]
      else replacementChar :: utf8DecodeGo fuel bs

def utf8Decode (bs : List Nat) : List Char := utf8DecodeGo bs.length bs

/-- A maximal run of valid `%XX` escapes, as bytes, plus the remainder. -/
def pctRun : List Char → List Nat × List Char
  | '%' :: c1 :: c2 :: rest =>
      match hexVal c1, hexVal c2 with
      | some h1, some h2 =>
          let r := pctRun rest
          ((h1 * 16 + h2) :: r.1, r.2)
      | _, _ => ([], '%' :: c1 :: c2 :: rest)
  | l => ([], l)

/-- The scan of `urllib.parse.unquote`: percent-escape runs are decoded as
UTF-8, everything else is copied (an invalid escape stays literal).  Fuel is
the character count, which bounds the number of steps. -/
def unquoteGo : Nat → List Char → List Char
  | 0, l => l
  | _, [] => []
  | fuel + 1, '%' :: c1 :: c2 :: rest =>
      match hexVal c1, hexVal c2 with
      | some _, some _ =>
          let r := pctRun ('%' :: c1 :: c2 :: rest)
          utf8Decode r.1 ++ unquoteGo fuel r.2
      | _, _ => '%' :: unquoteGo fuel (c1 :: c2 :: rest)
  | fuel + 1, c :: rest => c :: unquoteGo fuel rest

def unquote (s : String) : String := String.mk (unquoteGo s.data.length s.data)

/-- `parse_qsl` decodes each field with `+` read as space, then `unquote`. -/
def unquotePlus (s : String) : String :=
  unquote (String.mk (s.data.map (fun c => if c = '+' then ' ' else c)))

/-- Python `str.lower` on ASCII. -/
def lowerStr (s : String) : String := String.mk (s.data.map Char.toLower)

/-- Embeds `urllib.parse.parse_qsl` at its defaults (`keep_blank_values`
False, separator `&`): empty fields and fields without `=` or with an empty
value are dropped, names and values are `unquote_plus`-decoded. -/
def parse_qsl (qs : String) : List (String × String) :=
  (splitAll '&' qs.data).filterMap (fun pair =>
    if pair = [] then none
    else
      match splitOnceChar '=' pair with
      | (_, none) => none
      | (name, some value) =>
          if value = [] then none
          else some (unquotePlus (String.mk name), unquotePlus (String.mk value)))

/-- One step of `parse_qs`'s dict building: append the value to the key's
group or open a new group at the end. -/
def addPair (acc : List (String × List String)) (kv : String × String) :
    List (String × List String) :=
  if acc.any (fun g => g.1 = kv.1) then
    acc.map (fun g => if g.1 = kv.1 then (g.1, g.2 ++ [kv.2]) else g)
  else acc ++ [(kv.1, [kv.2])]

/-- Embeds `urllib.parse.parse_qs`: values grouped per key, keys in first
occurrence order. -/
def parse_qs (qs : String) : List (String × List String) :=
  (parse_qsl qs).foldl addPair []

/-- The characters `quote` never encodes (`_ALWAYS_SAFE`). -/
def alwaysSafeChar (c : Char) : Bool :=
  isAsciiLetter c || isAsciiDigit c || c == '_' || c == '.' || c == '-' || c == '~'

def hexUpper (n : Nat) : Char :=
  (['0', '1', '2', '3', '4', '5', '6', '7', '8', '9',
    'A', 'B', 'C', 'D', 'E', 'F'] : List Char).getD n '0'

def pctEncodeByte (b : Nat) : List Char := ['%', hexUpper (b / 16), hexUpper (b % 16)]

/-- `urllib.parse.quote` at the given extra-safe set (UTF-8 bytes of unsafe
characters percent-encoded uppercase). -/
def quote (safe : List Char) (s : String) : String :=
  String.mk (s.data.flatMap (fun c =>
    if alwaysSafeChar c || safe.contains c then [c]
    else (utf8Bytes c).flatMap pctEncodeByte))

/-- `urllib.parse.quote_plus` at `safe=''` (the `urlencode` default): spaces
become `+`, everything else as `quote`. -/
def quotePlus (s : String) : String :=
  if s.data.contains ' ' then
    String.mk ((quote [' '] s).data.map (fun c => if c = ' ' then '+' else c))
  else quote [] s

/-- Embeds `urllib.parse.urlencode` with `doseq=True` over a parsed-query
dict (each value a list of strings). -/
def urlencode (params : List (String × List String)) : String :=
  String.intercalate "&" (params.flatMap (fun kv =>
    kv.2.map (fun v => quotePlus kv.1 ++ "=" ++ quotePlus v)))

/-- The `SplitResult` components of `urlsplit`. -/
structure SplitResult where
  scheme : String
  netloc : String
  path : String
  query : String
  fragment : String
deriving Repr, DecidableEq

/-- The `ParseResult` components of `urlparse`. -/
structure UrlParts where
  scheme : String
  netloc : String
  path : String
  params : String
  query : String
  fragment : String
deriving Repr, DecidableEq

def netlocDelim (c : Char) : Bool := c == '/' || c == '?' || c == '#'

/-- `urlsplit`'s input sanitisation: lstrip WHATWG C0 controls and space,
then remove every tab, CR and LF. -/
def preprocUrl (s : String) : List Char :=
  (s.data.dropWhile (fun c => decide (c.toNat ≤ 32))).filter
    (fun c => !(c == '\t' || c == '\r' || c == '\n'))

/-- The scheme step of `urlsplit`: a first `:` preceded by a letter-led,
all-scheme-chars, non-empty prefix marks a scheme (lowercased). -/
def schemeSplit (l0 : List Char) : String × List Char :=
  match (splitOnceChar ':' l0).2 with
  | none => ("", l0)
  | some rest =>
      match (splitOnceChar ':' l0).1 with
      | [] => ("", l0)
      | c :: cs =>
          if isAsciiLetter c && (c :: cs).all schemeCharB then
            (String.mk ((c :: cs).map Char.toLower), rest)
          else ("", l0)

/-- The netloc step of `urlsplit` (`_splitnetloc`): after a leading `//`,
the netloc runs to the first `/`, `?` or `#`. -/
def netlocSplit (l1 : List Char) : List Char × List Char :=
  if l1.take 2 = ['/', '/'] then
    ((l1.drop 2).takeWhile (fun c => !netlocDelim c),
     (l1.drop 2).dropWhile (fun c => !netlocDelim c))
  else ([], l1)

/-- The fragment step of `urlsplit`: split at the first `#` when present. -/
def fragSplit (l2 : List Char) : List Char × List Char :=
  match (splitOnceChar '#' l2).2 with
  | some after => ((splitOnceChar '#' l2).1, after)
  | none => ((splitOnceChar '#' l2).1, [])

/-- The query step of `urlsplit`: split at the first `?` when present. -/
def querySplit (l3 : List Char) : List Char × List Char :=
  match (splitOnceChar '?' l3).2 with
  | some after => ((splitOnceChar '?' l3).1, after)
  | none => ((splitOnceChar '?' l3).1, [])

/-- The body of `urllib.parse.urlsplit` after sanitisation: scheme, netloc
with the IPv6 bracket check, then fragment and query splits. -/
def urlsplitCore (l0 : List Char) : Except String SplitResult :=
  let s := schemeSplit l0
  let n := netlocSplit s.2
  if (n.1.contains '[' && !n.1.contains ']') ||
     (n.1.contains ']' && !n.1.contains '[') then
    Except.error "Invalid IPv6 URL"
  else
    Except.ok ⟨s.1, String.mk n.1, String.mk (querySplit (fragSplit n.2).1).1,
      String.mk (querySplit (fragSplit n.2).1).2, String.mk (fragSplit n.2).2⟩

/-- `_splitparams`: split `;params` off the last path segment (only past the
last `/` when one occurs). -/
def splitparams (path : List Char) : List Char × List Char :=
  if path.contains '/' then
    let seg := (path.reverse.takeWhile (fun c => !(c == '/'))).reverse
    let pre := path.take (path.length - seg.length)
    match splitOnceChar ';' seg with
    | (before, some after) => (pre ++ before, after)
    | (_, none) => (path, [])
  else
    match splitOnceChar ';' path with
    | (before, some after) => (before, after)
    | (_, none) => (path, [])

/-- Embeds `urllib.parse.urlparse` (raises only the IPv6 bracket error). -/
def urlparseE (s : String) : Except String UrlParts :=
  match urlsplitCore (preprocUrl s) with
  | .error e => .error e
  | .ok r =>
      let pp := splitparams r.path.data
      .ok ⟨r.scheme, r.netloc, String.mk pp.1, String.mk pp.2, r.query, r.fragment⟩

/-- Embeds `urllib.parse.urlunsplit`. -/
def urlunsplit (scheme netloc url query fragment : String) : String :=
  let url1 :=
    if netloc ≠ "" ∨ url.data.take 2 = ['/', '/'] then
      let url2 := if url ≠ "" ∧ url.data.head? ≠ some '/' then "/" ++ url else url
      "//" ++ netloc ++ url2
    else url
  let url3 := if scheme ≠ "" then scheme ++ ":" ++ url1 else url1
  let url4 := if query ≠ "" then url3 ++ "?" ++ query else url3
  if fragment ≠ "" then url4 ++ "#" ++ fragment else url4

/-- Embeds `urllib.parse.urlunparse`. -/
def urlunparse (scheme netloc path params query fragment : String) : String :=
  urlunsplit scheme netloc (if params ≠ "" then path ++ ";" ++ params else path) query fragment

/-- The tracking-parameter set of `utils.clean_url`. -/
def tracking_params : List String :=
  ["utm_source", "utm_medium", "utm_campaign", "utm_term", "utm_content",
   "gclid", "fbclid", "msclkid", "_ga", "mc_cid", "mc_eid",
   "sessionid", "sid", "timestamp", "_t", "_hsenc", "_hsmi"]

/-- The dict comprehension of `clean_url`: drop groups whose lowercased key
is a tracking parameter. -/
def cleanParams (qp : List (String × List String)) : List (String × List String) :=
  qp.filter (fun kv => !(tracking_params.contains (lowerStr kv.1)))

/-- `parse_qs`, filter, `urlencode` — the query pipeline of `clean_url`. -/
def cleanQuery (q : String) : String := urlencode (cleanParams (parse_qs q))

/-- Embeds `utils.clean_url`: rebuild the URL with the cleaned query and no
fragment; any parse error returns the URL unchanged (the `except` branch). -/
def clean_url (url : String) : String :=
  match urlparseE url with
  | .error _ => url
  | .ok p => urlunparse p.scheme p.netloc p.path p.params (cleanQuery p.query) ""

/-- Sanity check of the URL embedding: tracking parameters are removed, the
fragment is dropped, other parameters survive. -/
theorem clean_url_example :
    clean_url "http://example.com/path?x=1&utm_source=news&y=2#frag" =
      "http://example.com/path?x=1&y=2" := by
  decide

theorem splitOnceChar_none {sep : Char} {l : List Char} (h : sep ∉ l) :
    splitOnceChar sep l = (l, none) := by
  induction l with
  | nil => rfl
  | cons c cs ih =>
      simp only [splitOnceChar]
      have hc : ¬(c = sep) := fun hh => h (by rw [hh]; exact List.mem_cons_self _ _)
      rw [if_neg hc, ih (fun hm => h (List.mem_cons_of_mem _ hm))]

theorem splitOnceChar_append_sep {sep : Char} {l1 : List Char} (l2 : List Char)
    (h : sep ∉ l1) :
    splitOnceChar sep (l1 ++ sep :: l2) = (l1, some l2) := by
  induction l1 with
  | nil => simp [splitOnceChar]
  | cons c cs ih =>
      have hc : ¬(c = sep) := fun hh => h (by rw [hh]; exact List.mem_cons_self _ _)
      simp only [List.cons_append, splitOnceChar, if_neg hc, List.append_eq,
        ih (fun hm => h (List.mem_cons_of_mem _ hm))]

theorem splitOnceChar_some {sep : Char} : ∀ {l a b : List Char},
    splitOnceChar sep l = (a, some b) → l = a ++ sep :: b ∧ sep ∉ a := by
  intro l
  induction l with
  | nil =>
      intro a b h
      simp [splitOnceChar] at h
  | cons c cs ih =>
      intro a b h
      simp only [splitOnceChar] at h
      by_cases hc : c = sep
      · rw [if_pos hc] at h
        obtain ⟨ha, hb⟩ : ([] : List Char) = a ∧ some cs = some b := by
          exact ⟨congrArg Prod.fst h, congrArg Prod.snd h⟩
        subst hc
        rw [← ha, Option.some.inj hb]
        simp
      · rw [if_neg hc] at h
        have h1 : c :: (splitOnceChar sep cs).1 = a := congrArg Prod.fst h
        have h2 : (splitOnceChar sep cs).2 = some b := congrArg Prod.snd h
        have hcs : splitOnceChar sep cs = ((splitOnceChar sep cs).1, some b) := by
          rw [← h2]
        obtain ⟨hdec, hnot⟩ := ih hcs
        constructor
        · rw [← h1]
          conv_lhs => rw [hdec]
          simp
        · rw [← h1]
          intro hm
          rcases List.mem_cons.mp hm with hm | hm
          · exact hc hm.symm
          · exact hnot hm

theorem splitOnceChar_append_left {sep : Char} : ∀ {l1 a b : List Char} (l2 : List Char),
    splitOnceChar sep l1 = (a, some b) →
    splitOnceChar sep (l1 ++ l2) = (a, some (b ++ l2)) := by
  intro l1
  induction l1 with
  | nil =>
      intro a b l2 h
      simp [splitOnceChar] at h
  | cons c cs ih =>
      intro a b l2 h
      simp only [splitOnceChar, List.cons_append, List.append_eq] at h ⊢
      by_cases hc : c = sep
      · rw [if_pos hc] at h
        obtain ⟨ha, hb⟩ : ([] : List Char) = a ∧ some cs = some b :=
          ⟨congrArg Prod.fst h, congrArg Prod.snd h⟩
        rw [if_pos hc, ← ha, ← Option.some.inj hb]
      · rw [if_neg hc] at h
        have h1 : c :: (splitOnceChar sep cs).1 = a := congrArg Prod.fst h
        have h2 : (splitOnceChar sep cs).2 = some b := congrArg Prod.snd h
        have hcs : splitOnceChar sep cs = ((splitOnceChar sep cs).1, some b) := by
          rw [← h2]
        rw [if_neg hc, ih l2 hcs, ← h1]

theorem splitAll_ne_nil (sep : Char) (l : List Char) : splitAll sep l ≠ [] := by
  induction l with
  | nil => simp [splitAll]
  | cons c cs ih =>
      simp only [splitAll]
      by_cases hc : c = sep
      · simp [hc]
      · rw [if_neg hc]
        rcases hr : splitAll sep cs with _ | ⟨h, t⟩
        · exact absurd hr ih
        · simp

theorem splitAll_append_sep (sep : Char) (l1 l2 : List Char) :
    splitAll sep (l1 ++ sep :: l2) = splitAll sep l1 ++ splitAll sep l2 := by
  induction l1 with
  | nil => simp [splitAll]
  | cons c cs ih =>
      simp only [List.cons_append, splitAll, List.append_eq]
      by_cases hc : c = sep
      · simp [hc, ih]
      · rw [if_neg hc, if_neg hc]
        rcases hr : splitAll sep cs with _ | ⟨h, t⟩
        · exact absurd hr (splitAll_ne_nil sep cs)
        · rw [ih, hr]
          simp

theorem splitAll_no_sep {sep : Char} : ∀ {l : List Char}, sep ∉ l → splitAll sep l = [l] := by
  intro l
  induction l with
  | nil => intro _; rfl
  | cons c cs ih =>
      intro h
      have hc : ¬(c = sep) := fun hh => h (by rw [hh]; exact List.mem_cons_self _ _)
      simp only [splitAll, if_neg hc, ih (fun hm => h (List.mem_cons_of_mem _ hm))]

theorem data_append3 (a : String) (c : Char) (b : String) (hc : (String.mk [c] : String).data = [c]) :
    (a ++ String.mk [c] ++ b).data = a.data ++ c :: b.data := by
  rw [String.data_append, String.data_append, hc, List.append_assoc]
  rfl

theorem parse_qsl_append_amp (q rest : String) :
    parse_qsl (q ++ "&" ++ rest) = parse_qsl q ++ parse_qsl rest := by
  unfold parse_qsl
  have hdata : (q ++ "&" ++ rest).data = q.data ++ '&' :: rest.data :=
    data_append3 q '&' rest rfl
  rw [hdata, splitAll_append_sep, List.filterMap_append]

theorem parse_qsl_single_pair (k v : String) (hk_amp : '&' ∉ k.data) (hk_eq : '=' ∉ k.data)
    (hv_amp : '&' ∉ v.data) :
    parse_qsl (k ++ "=" ++ v) =
      if v.data = [] then [] else [(unquotePlus k, unquotePlus v)] := by
  unfold parse_qsl
  have hdata : (k ++ "=" ++ v).data = k.data ++ '=' :: v.data :=
    data_append3 k '=' v rfl
  rw [hdata]
  have hnoamp : '&' ∉ (k.data ++ '=' :: v.data) := by
    intro hm
    rcases List.mem_append.mp hm with hm | hm
    · exact hk_amp hm
    · rcases List.mem_cons.mp hm with hm | hm
      · exact absurd hm (by decide)
      · exact hv_amp hm
  rw [splitAll_no_sep hnoamp]
  have hne : ¬(k.data ++ '=' :: v.data = []) := by simp
  simp only [List.filterMap_cons, List.filterMap_nil, if_neg hne,
    splitOnceChar_append_sep v.data hk_eq]
  by_cases hv : v.data = []
  · simp [hv]
  · simp [hv]

theorem parse_qs_append (q rest : String) :
    parse_qs (q ++ "&" ++ rest) = (parse_qsl rest).foldl addPair (parse_qs q) := by
  unfold parse_qs
  rw [parse_qsl_append_amp, List.foldl_append]

theorem filter_map_update_key (g : List (String × List String)) (k : String) (v : String)
    (hk : tracking_params.contains (lowerStr k) = true) :
    (g.map (fun x => if x.1 = k then (x.1, x.2 ++ [v]) else x)).filter
        (fun kv => !(tracking_params.contains (lowerStr kv.1))) =
      g.filter (fun kv => !(tracking_params.contains (lowerStr kv.1))) := by
  induction g with
  | nil => rfl
  | cons x g ih =>
      simp only [List.map_cons]
      by_cases hx : x.1 = k
      · rw [if_pos hx]
        have hpx : (!(tracking_params.contains (lowerStr x.1))) = false := by
            rw [hx, hk]
            rfl
        simp only [List.filter_cons, hpx]
        simpa using ih
      · rw [if_neg hx]
        by_cases hpx : (!(tracking_params.contains (lowerStr x.1))) = true
        · simp only [List.filter_cons, hpx]
          simp only [if_pos trivial]
          rw [ih]
        · have hpx2 : (!(tracking_params.contains (lowerStr x.1))) = false := by
            revert hpx
            cases (!(tracking_params.contains (lowerStr x.1))) <;> simp
          simp only [List.filter_cons, hpx2]
          simpa using ih

theorem cleanParams_addPair_tracking (g : List (String × List String)) (k v : String)
    (hk : tracking_params.contains (lowerStr k) = true) :
    cleanParams (addPair g (k, v)) = cleanParams g := by
  unfold addPair cleanParams
  by_cases hany : g.any (fun x => decide (x.1 = k)) = true
  · rw [if_pos (by simpa using hany)]
    exact filter_map_update_key g k v hk
  · rw [if_neg (by simpa using hany)]
    rw [List.filter_append]
    have hmem : lowerStr k ∈ tracking_params := by simpa using hk
    simp [hmem]

theorem cleanQuery_drops_tracking_pair (q k v : String) (hk_amp : '&' ∉ k.data)
    (hk_eq : '=' ∉ k.data) (hv_amp : '&' ∉ v.data)
    (hk : tracking_params.contains (lowerStr (unquotePlus k)) = true) :
    cleanQuery (q ++ "&" ++ (k ++ "=" ++ v)) = cleanQuery q := by
  unfold cleanQuery parse_qs
  rw [parse_qsl_append_amp, List.foldl_append,
    parse_qsl_single_pair k v hk_amp hk_eq hv_amp]
  by_cases hv : v.data = []
  · rw [if_pos hv]
    rfl
  · rw [if_neg hv]
    show urlencode (cleanParams (addPair ((parse_qsl q).foldl addPair [])
      (unquotePlus k, unquotePlus v))) = _
    rw [cleanParams_addPair_tracking _ _ _ hk]

theorem splitOnceChar_append_notin {sep : Char} : ∀ {l1 : List Char} (l2 : List Char),
    sep ∉ l1 →
    splitOnceChar sep (l1 ++ l2) = (l1 ++ (splitOnceChar sep l2).1, (splitOnceChar sep l2).2) := by
  intro l1
  induction l1 with
  | nil =>
      intro l2 _
      simp
  | cons c cs ih =>
      intro l2 h
      have hc : ¬(c = sep) := fun hh => h (by rw [hh]; exact List.mem_cons_self _ _)
      simp only [List.cons_append, splitOnceChar, if_neg hc, List.append_eq,
        ih l2 (fun hm => h (List.mem_cons_of_mem _ hm))]

theorem splitOnceChar_eq_none : ∀ {sep : Char} {l a : List Char},
    splitOnceChar sep l = (a, none) → sep ∉ l ∧ a = l := by
  intro sep l
  induction l with
  | nil =>
      intro a h
      obtain ⟨h1, _⟩ : ([] : List Char) = a ∧ (none : Option (List Char)) = none :=
        ⟨congrArg Prod.fst h, rfl⟩
      exact ⟨by simp, h1.symm⟩
  | cons c cs ih =>
      intro a h
      simp only [splitOnceChar] at h
      by_cases hc : c = sep
      · rw [if_pos hc] at h
        have : (some cs : Option (List Char)) = none := congrArg Prod.snd h
        exact absurd this (by simp)
      · rw [if_neg hc] at h
        have h1 : c :: (splitOnceChar sep cs).1 = a := congrArg Prod.fst h
        have h2 : (splitOnceChar sep cs).2 = none := congrArg Prod.snd h
        have hcs : splitOnceChar sep cs = ((splitOnceChar sep cs).1, none) := by
          rw [← h2]
        obtain ⟨hnot, heq⟩ := ih hcs
        constructor
        · intro hm
          rcases List.mem_cons.mp hm with hm | hm
          · exact hc hm.symm
          · exact hnot hm
        · rw [← h1, heq]

theorem mem_schemeSplit_snd {l : List Char} {c : Char} (h : c ∈ (schemeSplit l).2) :
    c ∈ l := by
  unfold schemeSplit at h
  rcases hsp : splitOnceChar ':' l with ⟨a, ob⟩
  rw [hsp] at h
  cases ob with
  | none => exact h
  | some b =>
      cases a with
      | nil => exact h
      | cons x xs =>
          by_cases hcond : isAsciiLetter x = true ∧ schemeCharB x = true ∧
            ∀ y ∈ xs, schemeCharB y = true
          · have h2 : c ∈ b := by
              have h3 := h
              simp [hcond.1, hcond.2.1] at h3
              rwa [if_pos hcond.2.2] at h3
            obtain ⟨hdec, _⟩ := splitOnceChar_some hsp
            rw [hdec]
            exact List.mem_append.mpr (Or.inr (List.mem_cons_of_mem _ h2))
          · simpa [hcond] using h

theorem mem_netlocSplit_snd {l1 : List Char} {c : Char} (h : c ∈ (netlocSplit l1).2) :
    c ∈ l1 := by
  unfold netlocSplit at h
  by_cases ht : l1.take 2 = ['/', '/']
  · rw [if_pos ht] at h
    exact (List.drop_sublist 2 l1).subset ((List.dropWhile_sublist _).subset h)
  · rw [if_neg ht] at h
    exact h

theorem schemeSplit_none {l0 a : List Char} (h : splitOnceChar ':' l0 = (a, none)) :
    schemeSplit l0 = ("", l0) := by
  unfold schemeSplit
  rw [h]

theorem schemeSplit_some_nil {l0 b : List Char} (h : splitOnceChar ':' l0 = ([], some b)) :
    schemeSplit l0 = ("", l0) := by
  unfold schemeSplit
  rw [h]

theorem schemeSplit_some_cons {l0 b : List Char} {x : Char} {xs : List Char}
    (h : splitOnceChar ':' l0 = (x :: xs, some b)) :
    schemeSplit l0 =
      (if isAsciiLetter x && (x :: xs).all schemeCharB then
        (String.mk ((x :: xs).map Char.toLower), b)
      else ("", l0)) := by
  unfold schemeSplit
  rw [h]

theorem schemeSplit_append_hash (l lf : List Char) (hl : '#' ∉ l) :
    schemeSplit (l ++ '#' :: lf) = ((schemeSplit l).1, (schemeSplit l).2 ++ '#' :: lf) := by
  rcases hsp : splitOnceChar ':' l with ⟨a, ob⟩
  cases ob with
  | none =>
      obtain ⟨hnotin, ha⟩ := splitOnceChar_eq_none hsp
      rw [schemeSplit_none hsp]
      have hap := splitOnceChar_append_notin ('#' :: lf) hnotin
      rcases hsp2 : splitOnceChar ':' lf with ⟨p, oq⟩
      have hsp3 : splitOnceChar ':' ('#' :: lf) = ('#' :: p, oq) := by
        simp only [splitOnceChar]
        rw [if_neg (by decide), hsp2]
      rw [hsp3] at hap
      cases oq with
      | none => rw [schemeSplit_none hap]
      | some q =>
          cases l with
          | nil =>
              rw [schemeSplit_some_cons (by simpa using hap)]
              have hlet : isAsciiLetter '#' = false := by decide
              rw [if_neg (by simp [hlet])]
          | cons y ys =>
              have hap2 : splitOnceChar ':' ((y :: ys) ++ '#' :: lf) =
                  (y :: (ys ++ '#' :: p), some q) := by
                simpa using hap
              rw [schemeSplit_some_cons hap2]
              have hallf : ((y :: (ys ++ '#' :: p)).all schemeCharB) = false := by
                rw [List.all_eq_false]
                exact ⟨'#', by simp, by decide⟩
              rw [if_neg (by simp [hallf])]
  | some b =>
      have hap := splitOnceChar_append_left ('#' :: lf) hsp
      cases a with
      | nil =>
          rw [schemeSplit_some_nil hsp, schemeSplit_some_nil hap]
      | cons x xs =>
          rw [schemeSplit_some_cons hsp, schemeSplit_some_cons hap]
          by_cases hc : (isAsciiLetter x && (x :: xs).all schemeCharB) = true
          · rw [if_pos hc, if_pos hc]
          · rw [if_neg hc, if_neg hc]

theorem takeWhile_append_hash (p : Char → Bool) (hp : p '#' = false) (m2 lf : List Char) :
    (m2 ++ '#' :: lf).takeWhile p = m2.takeWhile p := by
  rw [List.takeWhile_append]
  by_cases hlen : (m2.takeWhile p).length = m2.length
  · rw [if_pos hlen]
    rw [List.takeWhile_cons_of_neg (by simp [hp])]
    rw [List.append_nil]
    exact ((List.takeWhile_prefix p).eq_of_length hlen).symm
  · rw [if_neg hlen]

theorem dropWhile_append_hash (p : Char → Bool) (hp : p '#' = false) (m2 lf : List Char) :
    (m2 ++ '#' :: lf).dropWhile p = m2.dropWhile p ++ '#' :: lf := by
  rw [List.dropWhile_append]
  by_cases hemp : (m2.dropWhile p).isEmpty = true
  · rw [if_pos hemp]
    have h0 : m2.dropWhile p = [] := by simpa [List.isEmpty_iff] using hemp
    rw [List.dropWhile_cons_of_neg (by simp [hp]), h0]
    rfl
  · rw [if_neg hemp]

theorem netlocSplit_append_hash (m lf : List Char) :
    netlocSplit (m ++ '#' :: lf) = ((netlocSplit m).1, (netlocSplit m).2 ++ '#' :: lf) := by
  unfold netlocSplit
  rcases m with _ | ⟨c1, m1⟩
  · rw [if_neg (by simp), if_neg (by simp)]
  rcases m1 with _ | ⟨c2, m2⟩
  · rw [if_neg (by simp), if_neg (by simp)]
  by_cases ht : c1 = '/' ∧ c2 = '/'
  · obtain ⟨h1, h2⟩ := ht
    subst h1
    subst h2
    rw [if_pos (by simp), if_pos (by simp)]
    have hdrop : (('/' :: '/' :: m2 : List Char) ++ '#' :: lf).drop 2 = m2 ++ '#' :: lf := by
      simp
    rw [hdrop]
    have hdrop2 : (('/' :: '/' :: m2 : List Char)).drop 2 = m2 := by simp
    rw [hdrop2]
    rw [takeWhile_append_hash _ (by decide), dropWhile_append_hash _ (by decide)]
  · have hcond1 : ¬((c1 :: c2 :: (m2 ++ '#' :: lf)).take 2 = ['/', '/']) := by
      simpa using ht
    have hcond2 : ¬((c1 :: c2 :: m2).take 2 = ['/', '/']) := by
      simpa using ht
    rw [if_neg (by simpa using hcond1), if_neg hcond2]

theorem mem_preprocUrl {s : String} {c : Char} (h : c ∈ preprocUrl s) : c ∈ s.data := by
  unfold preprocUrl at h
  exact (List.dropWhile_sublist _).subset (List.mem_of_mem_filter h)

theorem preprocUrl_append_hash (u f : String) :
    preprocUrl (u ++ "#" ++ f) =
      preprocUrl u ++ '#' :: (f.data.filter (fun c => !(c == '\t' || c == '\r' || c == '\n'))) := by
  unfold preprocUrl
  rw [data_append3 u '#' f rfl]
  rw [List.dropWhile_append]
  by_cases hemp : ((u.data.dropWhile (fun c => decide (c.toNat ≤ 32))).isEmpty) = true
  · rw [if_pos hemp]
    have hu : u.data.dropWhile (fun c => decide (c.toNat ≤ 32)) = [] := by
      simpa [List.isEmpty_iff] using hemp
    rw [hu, List.dropWhile_cons_of_neg (by decide)]
    simp
  · rw [if_neg hemp]
    rw [List.filter_append]
    have hfc : ((('#' : Char) :: f.data).filter (fun c => !(c == '\t' || c == '\r' || c == '\n'))) =
        '#' :: f.data.filter (fun c => !(c == '\t' || c == '\r' || c == '\n')) := by
      rw [List.filter_cons_of_pos (by decide)]
    rw [hfc]

theorem fragSplit_notin {l2 : List Char} (h : '#' ∉ l2) : fragSplit l2 = (l2, []) := by
  unfold fragSplit
  rw [splitOnceChar_none h]

theorem fragSplit_append {l2 : List Char} (lf : List Char) (h : '#' ∉ l2) :
    fragSplit (l2 ++ '#' :: lf) = (l2, lf) := by
  unfold fragSplit
  rw [splitOnceChar_append_sep lf h]

theorem urlsplitCore_fragment (l lf : List Char) (hl : '#' ∉ l) (r : SplitResult)
    (hok : urlsplitCore l = .ok r) :
    urlsplitCore (l ++ '#' :: lf) = .ok ⟨r.scheme, r.netloc, r.path, r.query, String.mk lf⟩ := by
  have hn2 : '#' ∉ (netlocSplit (schemeSplit l).2).2 := fun hm =>
    hl (mem_schemeSplit_snd (mem_netlocSplit_snd hm))
  unfold urlsplitCore at hok ⊢
  rw [schemeSplit_append_hash l lf hl]
  simp only [netlocSplit_append_hash]
  simp only [fragSplit_append lf hn2]
  simp only [fragSplit_notin hn2] at hok
  by_cases hC : (((netlocSplit (schemeSplit l).2).1.contains '[' &&
      !(netlocSplit (schemeSplit l).2).1.contains ']') ||
     ((netlocSplit (schemeSplit l).2).1.contains ']' &&
      !(netlocSplit (schemeSplit l).2).1.contains '[')) = true
  · rw [if_pos hC] at hok
    exact absurd hok (by simp)
  · rw [if_neg hC] at hok ⊢
    have hr := Except.ok.inj hok
    rw [← hr]

theorem urlparseE_fragment (u f : String) (hu : '#' ∉ u.data) (c : UrlParts)
    (hok : urlparseE u = .ok c) :
    urlparseE (u ++ "#" ++ f) = .ok ⟨c.scheme, c.netloc, c.path, c.params, c.query,
      String.mk (f.data.filter (fun ch => !(ch == '\t' || ch == '\r' || ch == '\n')))⟩ := by
  have hp : '#' ∉ preprocUrl u := fun hm => hu (mem_preprocUrl hm)
  unfold urlparseE at hok ⊢
  rw [preprocUrl_append_hash]
  cases hsc : urlsplitCore (preprocUrl u) with
  | error e =>
      rw [hsc] at hok
      exact absurd hok (by simp)
  | ok r =>
      rw [hsc] at hok
      rw [urlsplitCore_fragment _ _ hp r hsc]
      have hc := Except.ok.inj hok
      rw [← hc]

/-- `clean_url` is insensitive to an appended fragment: for a parseable URL
without `#`, cleaning `u#f` gives the same result as cleaning `u`. -/
theorem clean_url_fragment (u f : String) (hu : '#' ∉ u.data) (c : UrlParts)
    (hok : urlparseE u = .ok c) : clean_url (u ++ "#" ++ f) = clean_url u := by
  unfold clean_url
  rw [hok, urlparseE_fragment u f hu c hok]

/-- Counterexample to C7 as stated: the parameter `a` of
`http://example.com/p?a=&b=1` is not a tracking parameter, yet `clean_url`
removes it — `parse_qs` at its defaults drops blank-valued parameters — so
the remaining query parameters are not all preserved. -/
theorem clean_url_blank_param_counterexample :
    clean_url "http://example.com/p?a=&b=1" = "http://example.com/p?b=1" ∧
    tracking_params.contains (lowerStr "a") = false := by
  decide

/-- C7 (amended) — `clean_url` rebuilds a parseable URL from its components
with the path preserved, the cleaned query and no fragment; the cleaned
query keeps exactly the non-tracking parameter groups of `parse_qs` (so
parameters with blank values are dropped and duplicate keys are regrouped at
the key's first occurrence); inserting a tracking parameter `k=v` into the
query leaves the cleaned query unchanged; and appending a `#fragment` leaves
the cleaned URL unchanged. -/
theorem clean_url_amended :
    (∀ u c, urlparseE u = .ok c →
      clean_url u = urlunparse c.scheme c.netloc c.path c.params (cleanQuery c.query) "") ∧
    (∀ q k v : String, '&' ∉ k.data → '=' ∉ k.data → '&' ∉ v.data →
      tracking_params.contains (lowerStr (unquotePlus k)) = true →
      cleanQuery (q ++ "&" ++ (k ++ "=" ++ v)) = cleanQuery q) ∧
    (∀ u f c, '#' ∉ u.data → urlparseE u = .ok c →
      clean_url (u ++ "#" ++ f) = clean_url u) := by
  refine ⟨?_, ?_, ?_⟩
  · intro u c hok
    unfold clean_url
    rw [hok]
  · intro q k v h1 h2 h3 h4
    exact cleanQuery_drops_tracking_pair q k v h1 h2 h3 h4
  · intro u f c hu hok
    exact clean_url_fragment u f hu c hok

/-- Witness for the amended C7: inserting `utm_source=abc` into `x=1` leaves
the cleaned query unchanged, and appending `#sec` to a concrete URL leaves
the cleaned URL unchanged. -/
theorem clean_url_amended_witness :
    cleanQuery ("x=1" ++ "&" ++ ("utm_source" ++ "=" ++ "abc")) = cleanQuery "x=1" ∧
    clean_url ("http://example.com/p" ++ "#" ++ "sec") = clean_url "http://example.com/p" :=
  ⟨clean_url_amended.2.1 "x=1" "utm_source" "abc" (by decide) (by decide) (by decide)
    (by decide),
   clean_url_amended.2.2 "http://example.com/p" "sec"
    ⟨"http", "example.com", "/p", "", "", ""⟩ (by decide) (by rfl)⟩

/-! ### C6 — HTML normalization (`utils.normalize_html`, `utils.extract_text_content`)

`BeautifulSoup` is an external library, so parsing is modelled as an explicit
parameter `parse : String → Except String (List HNode)` that returns the
parsed node forest or raises (a Python exception becomes `Except.error`).
Everything after the parse is translated from `utils.py` lines 37–92
(`normalize_html`) and 274–296 (`extract_text_content`): neither function
contains a `try`, so a parser exception propagates to the caller — modelled
by `Except.map`, which forwards errors untouched.  The collectors
(`collectors/web.py` 131–200, `collectors/jobs.py` 201–257) wrap the call in
`try/except Exception`, and the handler sets `observation.status = 'error'`
with no content hash: that caller behaviour is modelled by `collectHash`.
Tree recursion uses explicit fuel (initialised from the node-count `sizeL`, which strictly
shrinks at every recursive call) so the definitions stay kernel-evaluable. -/

inductive HNode where
  | element (tag : String) (attrs : List (String × String)) (children : List HNode)
  | text (s : String)
  | comment (s : String)

mutual

def sizeN : HNode → Nat
  | HNode.text _ => 1
  | HNode.comment _ => 1
  | HNode.element _ _ c => 1 + sizeL c

def sizeL : List HNode → Nat
  | [] => 1
  | n :: ns => 1 + sizeN n + sizeL ns

end

def bannedTags : List String := ["script", "style", "noscript"]

/-- `for tag in soup(['script','style','noscript']): tag.decompose()` -/
def stripBanned : Nat → List HNode → List HNode
  | 0, _ => []
  | _ + 1, [] => []
  | fuel + 1, HNode.comment s :: ns => HNode.comment s :: stripBanned fuel ns
  | fuel + 1, HNode.text s :: ns => HNode.text s :: stripBanned fuel ns
  | fuel + 1, HNode.element t a c :: ns =>
      if t ∈ bannedTags then stripBanned fuel ns
      else HNode.element t a (stripBanned fuel c) :: stripBanned fuel ns

/-- `for comment in soup.find_all(string=...Comment): comment.extract()` -/
def stripComments : Nat → List HNode → List HNode
  | 0, _ => []
  | _ + 1, [] => []
  | fuel + 1, HNode.comment _ :: ns => stripComments fuel ns
  | fuel + 1, HNode.text s :: ns => HNode.text s :: stripComments fuel ns
  | fuel + 1, HNode.element t a c :: ns =>
      HNode.element t a (stripComments fuel c) :: stripComments fuel ns

def dynamic_attrs : List String :=
  ["data-timestamp", "data-session", "data-visitor-id", "data-analytics",
   "data-gtm", "data-ga"]

/-- `for tag in soup.find_all(attrs=\x7battr: True\x7d): del tag[attr]` -/
def removeAttr (attr : String) : Nat → List HNode → List HNode
  | 0, _ => []
  | _ + 1, [] => []
  | fuel + 1, HNode.comment s :: ns => HNode.comment s :: removeAttr attr fuel ns
  | fuel + 1, HNode.text s :: ns => HNode.text s :: removeAttr attr fuel ns
  | fuel + 1, HNode.element t a c :: ns =>
      HNode.element t (a.filter (fun p => p.1 ≠ attr)) (removeAttr attr fuel c)
        :: removeAttr attr fuel ns

def hasAttr (key : String) (a : List (String × String)) : Bool :=
  a.any (fun p => p.1 = key)

def updateAttr (key : String) (f : String → String)
    (a : List (String × String)) : List (String × String) :=
  a.map (fun p => if p.1 = key then (p.1, f p.2) else p)

/-- `for tag in soup.find_all(tags, key=True): tag[key] = clean_url(tag[key])` -/
def cleanAttrUrls (tags : List String) (key : String) :
    Nat → List HNode → List HNode
  | 0, _ => []
  | _ + 1, [] => []
  | fuel + 1, HNode.comment s :: ns =>
      HNode.comment s :: cleanAttrUrls tags key fuel ns
  | fuel + 1, HNode.text s :: ns =>
      HNode.text s :: cleanAttrUrls tags key fuel ns
  | fuel + 1, HNode.element t a c :: ns =>
      let a2 := if tags.contains t && hasAttr key a then updateAttr key clean_url a else a
      HNode.element t a2 (cleanAttrUrls tags key fuel c)
        :: cleanAttrUrls tags key fuel ns

/-- Text-node escaping used by `str(soup)`. -/
def htmlEscape (s : String) : String :=
  String.mk (s.data.flatMap (fun c =>
    if c = '&' then "&amp;".data
    else if c = '<' then "&lt;".data
    else if c = '>' then "&gt;".data
    else [c]))

def attrEscape (s : String) : String :=
  String.mk (s.data.flatMap (fun c =>
    if c = '&' then "&amp;".data
    else if c = '"' then "&quot;".data
    else [c]))

def renderAttrs (a : List (String × String)) : String :=
  String.join (a.map (fun p => " " ++ p.1 ++ "=\"" ++ attrEscape p.2 ++ "\""))

/-- `str(soup)`: serialize the node forest back to markup. -/
def renderNodes : Nat → List HNode → String
  | 0, _ => ""
  | _ + 1, [] => ""
  | fuel + 1, HNode.text s :: ns => htmlEscape s ++ renderNodes fuel ns
  | fuel + 1, HNode.comment s :: ns =>
      "<!--" ++ s ++ "-->" ++ renderNodes fuel ns
  | fuel + 1, HNode.element t a c :: ns =>
      "<" ++ t ++ renderAttrs a ++ ">" ++ renderNodes fuel c ++ "</" ++ t ++ ">"
        ++ renderNodes fuel ns

/-- Python `\s` for ASCII text. -/
def isPySpace (c : Char) : Bool :=
  c = ' ' || c = '\t' || c = '\n' || c = '\r' || c = '\x0b' || c = '\x0c'

def collapseWsGo : Bool → List Char → List Char
  | _, [] => []
  | prevSpace, c :: cs =>
      if isPySpace c then
        if prevSpace then collapseWsGo true cs
        else ' ' :: collapseWsGo true cs
      else c :: collapseWsGo false cs

/-- `re.sub(r'\s+', ' ', s)` -/
def collapseWs (s : String) : String := String.mk (collapseWsGo false s.data)

def dropInterTagGo : List Char → List Char
  | '>' :: ' ' :: '<' :: cs => '>' :: '<' :: dropInterTagGo cs
  | c :: cs => c :: dropInterTagGo cs
  | [] => []

/-- `re.sub(r'>\s+<', '><', s)` applied after whitespace was already
collapsed to single spaces, so the gap is exactly one space. -/
def dropInterTag (s : String) : String := String.mk (dropInterTagGo s.data)

/-- Python `str.strip()` (whitespace at both ends). -/
def stripStr (s : String) : String :=
  String.mk (((s.data.dropWhile isPySpace).reverse.dropWhile isPySpace).reverse)

/-- The tree passes of `normalize_html` (utils.py 54–83), in source order. -/
def normalizeTree (ns : List HNode) : List HNode :=
  let s1 := stripBanned (sizeL ns) ns
  let s2 := stripComments (sizeL s1) s1
  let s3 := dynamic_attrs.foldl (fun acc attr => removeAttr attr (sizeL acc) acc) s2
  let s4 := cleanAttrUrls ["a", "link"] "href" (sizeL s3) s3
  cleanAttrUrls ["img", "script"] "src" (sizeL s4) s4

/-- utils.normalize_html (lines 37–92).  No `try` anywhere in the body: a
parser failure propagates (`Except.map` forwards the error). -/
def normalize_html (parse : String → Except String (List HNode))
    (html : String) : Except String String :=
  (parse html).map (fun soup =>
    stripStr (dropInterTag (collapseWs
      (renderNodes (sizeL (normalizeTree soup)) (normalizeTree soup)))))

/-- Text nodes in document order, as visited by `soup.get_text`. -/
def textNodes : Nat → List HNode → List String
  | 0, _ => []
  | _ + 1, [] => []
  | fuel + 1, HNode.text s :: ns => s :: textNodes fuel ns
  | fuel + 1, HNode.comment _ :: ns => textNodes fuel ns
  | fuel + 1, HNode.element _ _ c :: ns => textNodes fuel c ++ textNodes fuel ns

/-- `soup.get_text(separator=' ', strip=True)`: each text node stripped,
empties dropped, joined by the separator. -/
def get_text (ns : List HNode) : String :=
  String.intercalate " "
    (((textNodes (sizeL ns) ns).map stripStr).filter (fun s => s ≠ ""))

/-- utils.extract_text_content (lines 274–296).  Also parses first, with no
`try`: the same parser failure propagates from here as well. -/
def extract_text_content (parse : String → Except String (List HNode))
    (html : String) : Except String String :=
  (parse html).map (fun soup =>
    stripStr (collapseWs (get_text (stripBanned (sizeL soup) soup))))

/-- Outcome of the collector body around `normalize_html`
(collectors/web.py 131–200 and collectors/jobs.py 201–257): on success the
observation carries the hash of the normalized content; on any exception the
handler sets `status = 'error'`, records the message, and leaves
`content_hash` unset — there is no call to `extract_text_content` anywhere
in the repository. -/
structure CollectOutcome where
  status : String
  content_hash : Option String
  error_message : Option String

def collectHash (parse : String → Except String (List HNode))
    (html : String) : CollectOutcome :=
  match normalize_html parse html with
  | Except.ok normalized =>
      { status := "success", content_hash := some (compute_hash normalized),
        error_message := none }
  | Except.error e =>
      { status := "error", content_hash := none, error_message := some e }

/-- Sanity check of the embedding: script elements and comments are removed
and the remaining forest is re-serialized. -/
theorem normalize_html_example :
    normalize_html
      (fun _ => Except.ok
        [HNode.element "p" [] [HNode.text "hi"], HNode.comment "gone",
         HNode.element "script" [] [HNode.text "x"]]) "ignored"
      = Except.ok "<p>hi</p>" := by rfl

/-- Sanity check of the embedding: `extract_text_content` strips tags and
collapses whitespace. -/
theorem extract_text_example :
    extract_text_content
      (fun _ => Except.ok
        [HNode.element "p" [] [HNode.text "  hi "], HNode.comment "gone",
         HNode.element "script" [] [HNode.text "x"], HNode.text "there"]) "ignored"
      = Except.ok "hi there" := by rfl

/-- Counterexample to C6 as stated: when the parser rejects malformed input,
`normalize_html` raises to its caller (no `try` in its body, no fallback to
any canonical text extraction), and the collector's handler then marks the
observation failed (`status = 'error'`, no content hash) — the opposite of
the claimed behaviour.  `extract_text_content` is never called anywhere in
the repository. -/
theorem normalize_html_no_fallback_counterexample :
    normalize_html (fun _ => Except.error "ParserRejectedMarkup") "<broken<"
      = Except.error "ParserRejectedMarkup" ∧
    (¬ ∃ out, normalize_html (fun _ => Except.error "ParserRejectedMarkup")
        "<broken<" = Except.ok out) ∧
    collectHash (fun _ => Except.error "ParserRejectedMarkup") "<broken<"
      = { status := "error", content_hash := none,
          error_message := some "ParserRejectedMarkup" } := by
  refine ⟨rfl, ?_, rfl⟩
  rintro ⟨out, h⟩
  simp [normalize_html, Except.map] at h

/-- C6 (amended) — content normalization propagates parser failures instead
of falling back: if the parse raises, `normalize_html` raises the same error
to its caller; the claimed fallback `extract_text_content` would raise the
same error too (and is in fact never invoked); the collector's
`except Exception` handler then fails the observation, recording
`status = 'error'` with no content hash; and when the parse succeeds,
`normalize_html` returns the stripped, whitespace-collapsed serialization of
the normalized tree. -/
theorem normalize_html_error_propagation :
    (∀ (parse : String → Except String (List HNode)) (html e : String),
      parse html = Except.error e → normalize_html parse html = Except.error e) ∧
    (∀ (parse : String → Except String (List HNode)) (html e : String),
      parse html = Except.error e →
      extract_text_content parse html = Except.error e) ∧
    (∀ (parse : String → Except String (List HNode)) (html e : String),
      parse html = Except.error e →
      collectHash parse html =
        { status := "error", content_hash := none, error_message := some e }) ∧
    (∀ (parse : String → Except String (List HNode)) (html : String)
      (soup : List HNode), parse html = Except.ok soup →
      normalize_html parse html = Except.ok (stripStr (dropInterTag (collapseWs
        (renderNodes (sizeL (normalizeTree soup)) (normalizeTree soup)))))) := by
  refine ⟨?_, ?_, ?_, ?_⟩
  · intro parse html e h
    simp [normalize_html, h, Except.map]
  · intro parse html e h
    simp [extract_text_content, h, Except.map]
  · intro parse html e h
    have h1 : normalize_html parse html = Except.error e := by
      simp [normalize_html, h, Except.map]
    simp [collectHash, h1]
  · intro parse html soup h
    simp [normalize_html, h, Except.map]

/-- Witness for the amended C6 at concrete parsers: a rejecting parser makes
`normalize_html`, `extract_text_content` and the collector all observe the
error, and an accepting parser yields the normalized serialization. -/
theorem normalize_html_error_propagation_witness :
    normalize_html (fun _ => Except.error "ParserRejectedMarkup") "<"
      = Except.error "ParserRejectedMarkup" ∧
    extract_text_content (fun _ => Except.error "ParserRejectedMarkup") "<"
      = Except.error "ParserRejectedMarkup" ∧
    collectHash (fun _ => Except.error "ParserRejectedMarkup") "<"
      = { status := "error", content_hash := none,
          error_message := some "ParserRejectedMarkup" } ∧
    normalize_html (fun _ => Except.ok [HNode.text "hi"]) "x"
      = Except.ok (stripStr (dropInterTag (collapseWs
          (renderNodes (sizeL (normalizeTree [HNode.text "hi"]))
            (normalizeTree [HNode.text "hi"]))))) :=
  ⟨normalize_html_error_propagation.1 _ "<" _ rfl,
   normalize_html_error_propagation.2.1 _ "<" _ rfl,
   normalize_html_error_propagation.2.2.1 _ "<" _ rfl,
   normalize_html_error_propagation.2.2.2 _ "x" _ rfl⟩
